import Mathlib

/-!
Verification of the text-to-schedule inference engine of the `todo_magic`
integration (`custom_components/todo_magic/__init__.py`).

The Python module works on `datetime` values and strings.  We embed:

* `DT` — a naive `datetime` value (year, month, day, hour, minute).  Python's
  `datetime` also carries seconds/microseconds; every code path the claims
  touch either zeroes them (`replace(hour=0, minute=0, second=0,
  microsecond=0)`) or leaves them untouched alongside hour/minute, so the
  embedding models time-of-day at minute granularity.  Python limits years to
  1..9999; the embedding uses unbounded integers (none of the claims concerns
  that range limit).
* `datetime + timedelta(days=k)` — `addDaysI`, iterated calendar
  successor/predecessor.
* `datetime.weekday()` — day count since 1970-01-01 (Hinnant's
  `days_from_civil`), plus 3, modulo 7 (Monday = 0, as in Python).
* comparison of datetimes — lexicographic on the fields, as in Python.
* strings — `List Char` obtained via `String.data`; `str.lower()` is
  `Char.toLower` applied pointwise (the strings involved are ASCII).
-/

/-- A naive `datetime` value: date fields plus time-of-day at minute
granularity. -/
structure DT where
  year : Int
  month : Nat
  day : Nat
  hour : Nat
  minute : Nat
deriving DecidableEq, Repr

/-- Gregorian leap year, as implemented by Python's `datetime` module. -/
def isLeap (y : Int) : Prop := (y % 4 = 0 ∧ y % 100 ≠ 0) ∨ y % 400 = 0

instance (y : Int) : Decidable (isLeap y) := by unfold isLeap; infer_instance

/-- Length of a month in the proleptic Gregorian calendar. -/
def daysInMonth (y : Int) (m : Nat) : Nat :=
  if m = 2 then (if isLeap y then 29 else 28)
  else if m = 4 ∨ m = 6 ∨ m = 9 ∨ m = 11 then 30 else 31

/-- A `DT` holds a real calendar date (Python `datetime` values always do). -/
def ValidDT (d : DT) : Prop :=
  1 ≤ d.month ∧ d.month ≤ 12 ∧ 1 ≤ d.day ∧ d.day ≤ daysInMonth d.year d.month

instance (d : DT) : Decidable (ValidDT d) := by unfold ValidDT; infer_instance

/-- The calendar day after `d` (time of day preserved): one step of
`+ timedelta(days=1)`. -/
def succDay (d : DT) : DT :=
  if d.day < daysInMonth d.year d.month then { d with day := d.day + 1 }
  else if d.month < 12 then { d with month := d.month + 1, day := 1 }
  else { d with year := d.year + 1, month := 1, day := 1 }

/-- The calendar day before `d` (time of day preserved): one step of
`- timedelta(days=1)`. -/
def predDay (d : DT) : DT :=
  if 1 < d.day then { d with day := d.day - 1 }
  else if 1 < d.month then
    { d with month := d.month - 1, day := daysInMonth d.year (d.month - 1) }
  else { d with year := d.year - 1, month := 12, day := 31 }

/-- `d + timedelta(days=k)` for a nonnegative day count. -/
def addDays (d : DT) : Nat → DT
  | 0 => d
  | k + 1 => addDays (succDay d) k

/-- `d - timedelta(days=k)` for a nonnegative day count. -/
def subDays (d : DT) : Nat → DT
  | 0 => d
  | k + 1 => subDays (predDay d) k

/-- `d + timedelta(days=k)` for a possibly negative day count (Python
`timedelta` arithmetic). -/
def addDaysI (d : DT) (k : Int) : DT :=
  if 0 ≤ k then addDays d k.toNat else subDays d (-k).toNat

/-- Days since 1970-01-01 of the date part of `d` (Hinnant's
`days_from_civil`); Python's `toordinal` equals this plus 719163. -/
def rataDie (d : DT) : Int :=
  let yi : Int := if d.month ≤ 2 then d.year - 1 else d.year
  let era : Int := yi / 400
  let yoe : Nat := (yi - era * 400).toNat
  let mp : Nat := if d.month ≤ 2 then d.month + 9 else d.month - 3
  let doy : Nat := (153 * mp + 2) / 5 + d.day - 1
  let doe : Nat := yoe * 365 + yoe / 4 - yoe / 100 + doy
  era * 146097 + (doe : Int) - 719468

/-- Python's `datetime.weekday()`: Monday = 0 … Sunday = 6
(1970-01-01 was a Thursday). -/
def pyWeekday (d : DT) : Nat := ((rataDie d + 3) % 7).toNat

/-- Python's lexicographic comparison of naive datetimes (strict). -/
def dtLt (a b : DT) : Prop :=
  a.year < b.year ∨ (a.year = b.year ∧ (a.month < b.month ∨ (a.month = b.month ∧
    (a.day < b.day ∨ (a.day = b.day ∧ (a.hour < b.hour ∨ (a.hour = b.hour ∧
      a.minute < b.minute)))))))

instance (a b : DT) : Decidable (dtLt a b) := by unfold dtLt; infer_instance

/-- Python's lexicographic comparison of naive datetimes (non-strict). -/
def dtLe (a b : DT) : Prop := dtLt a b ∨ a = b

instance (a b : DT) : Decidable (dtLe a b) := by unfold dtLe; infer_instance

/-- `d.replace(hour=0, minute=0, second=0, microsecond=0)`. -/
def floorDay (d : DT) : DT := { d with hour := 0, minute := 0 }

/-- Strict ordering of the date parts only (day granularity). -/
def dateLt (a b : DT) : Prop :=
  a.year < b.year ∨ (a.year = b.year ∧ (a.month < b.month ∨ (a.month = b.month ∧
    a.day < b.day)))

/-- Equality of the date parts only. -/
def dateEq (a b : DT) : Prop :=
  a.year = b.year ∧ a.month = b.month ∧ a.day = b.day

example : rataDie ⟨1970, 1, 1, 0, 0⟩ = 0 := by decide
example : rataDie ⟨2025, 6, 16, 0, 0⟩ = 20255 := by decide
example : pyWeekday ⟨2025, 6, 16, 0, 0⟩ = 0 := by decide
example : pyWeekday ⟨2025, 6, 17, 0, 0⟩ = 1 := by decide
example : pyWeekday ⟨2024, 2, 29, 0, 0⟩ = 3 := by decide
example : addDays ⟨2025, 6, 16, 10, 30⟩ 20 = ⟨2025, 7, 6, 10, 30⟩ := by decide
example : addDaysI ⟨2025, 3, 1, 0, 0⟩ (-1) = ⟨2025, 2, 28, 0, 0⟩ := by decide

/-! ## The repeat-rule parser (`parse_repeat_pattern`) -/

/-- The weekday names stored in a parsed rule's `days` list
(`'mon'` … `'sun'` in the Python dict). -/
inductive Day where
  | mon | tue | wed | thu | fri | sat | sun
deriving DecidableEq, Repr

/-- The `day_mapping` dict: `m→mon, t→tue, w→wed, r→thu, f→fri, s→sat,
u→sun`; other characters are absent. -/
def dayMapping (c : Char) : Option Day :=
  if c = 'm' then some .mon
  else if c = 't' then some .tue
  else if c = 'w' then some .wed
  else if c = 'r' then some .thu
  else if c = 'f' then some .fri
  else if c = 's' then some .sat
  else if c = 'u' then some .sun
  else none

/-- The `day_to_num` dict (`Monday=0, Sunday=6`). -/
def dayToNum : Day → Nat
  | .mon => 0
  | .tue => 1
  | .wed => 2
  | .thu => 3
  | .fri => 4
  | .sat => 5
  | .sun => 6

/-- The `'type'` tag of the dict returned by `parse_repeat_pattern`:
`'simple'` or `'advanced'`. -/
inductive RuleType where
  | simple | advanced
deriving DecidableEq, Repr

/-- The dict returned by `parse_repeat_pattern`:
`{'type', 'unit', 'interval', 'days'}`; simple rules carry no `'days'` key,
embedded as the empty list. -/
structure Rule where
  type : RuleType
  unit : Char
  interval : Nat
  days : List Day
deriving DecidableEq, Repr

/-- Python's `\s` on ASCII input: space, tab, newline, carriage return,
form feed, vertical tab. -/
def isWs (c : Char) : Bool :=
  c = ' ' || c = '\t' || c = '\n' || c = '\r' || c = '\x0c' || c = '\x0b'

/-- `str.strip()`: drop whitespace from both ends. -/
def trimWs (l : List Char) : List Char :=
  ((l.dropWhile isWs).reverse.dropWhile isWs).reverse

/-- `int(...)` on a digit string. -/
def natOfDigits (l : List Char) : Nat :=
  l.foldl (fun a c => a * 10 + (c.toNat - '0'.toNat)) 0

/-- The regex `^(\d+)([dwmy])$`: a nonempty digit run followed by exactly one
unit letter. -/
def matchIntervalTok (l : List Char) : Option (Nat × Char) :=
  let p := l.span Char.isDigit
  match p.2 with
  | [u] => if p.1 ≠ [] ∧ (u = 'd' ∨ u = 'w' ∨ u = 'm' ∨ u = 'y') then
             some (natOfDigits p.1, u) else none
  | _ => none

/-- The regex `^(?:(\d+)w|w)-([mtwrfsu]+)$`: optional digit run, `w-`, then a
nonempty run of valid day letters; group 1 absent means interval 1. -/
def matchWeeklyTok (l : List Char) : Option (Nat × List Char) :=
  let p := l.span Char.isDigit
  match p.2 with
  | 'w' :: '-' :: ds =>
    if ds ≠ [] ∧ ds.all (fun c => (dayMapping c).isSome) then
      some (if p.1 = [] then 1 else natOfDigits p.1, ds)
    else none
  | _ => none

/-- The regex `^[mtwrfsu]+$`. -/
def matchDayLettersTok (l : List Char) : Bool :=
  l ≠ [] && l.all (fun c => (dayMapping c).isSome)

/-- `parse_repeat_pattern`: parses `[d]`, `[2w]`, `[w-mwf]`, `[mwf]`, …
into a rule dict, or returns `None`. -/
def parseRepeatPattern (s : String) : Option Rule :=
  let l := s.data
  -- `pattern_string.startswith("[") and pattern_string.endswith("]")`
  if l.head? = some '[' ∧ l.getLast? = some ']' then
    -- `pattern_string[1:-1].lower().strip()`
    let pat := trimWs (((l.drop 1).dropLast).map Char.toLower)
    if pat = [] then none
    -- `pattern in ('d', 'w', 'm', 'y')`
    else if pat = ['d'] ∨ pat = ['w'] ∨ pat = ['m'] ∨ pat = ['y'] then
      some ⟨.simple, pat.headD 'd', 1, []⟩
    else
      match matchIntervalTok pat with
      | some (i, u) => some ⟨.simple, u, i, []⟩
      | none =>
        match matchWeeklyTok pat with
        | some (i, ds) =>
          -- the loop `for char in day_string: if char in day_mapping: ...`
          let days := ds.filterMap dayMapping
          if days ≠ [] then some ⟨.advanced, 'w', i, days⟩
          else if matchDayLettersTok pat then
            let days := pat.filterMap dayMapping
            if days ≠ [] then some ⟨.advanced, 'w', 1, days⟩ else none
          else none
        | none =>
          if matchDayLettersTok pat then
            let days := pat.filterMap dayMapping
            if days ≠ [] then some ⟨.advanced, 'w', 1, days⟩ else none
          else none
  else none

example : parseRepeatPattern "[d]" = some ⟨.simple, 'd', 1, []⟩ := by decide
example : parseRepeatPattern "[3w]" = some ⟨.simple, 'w', 3, []⟩ := by decide
example : parseRepeatPattern "[0d]" = some ⟨.simple, 'd', 0, []⟩ := by decide
example : parseRepeatPattern "[w-mwf]" =
    some ⟨.advanced, 'w', 1, [.mon, .wed, .fri]⟩ := by decide
example : parseRepeatPattern "[2w-mtf]" =
    some ⟨.advanced, 'w', 2, [.mon, .tue, .fri]⟩ := by decide
example : parseRepeatPattern "[mwf]" =
    some ⟨.advanced, 'w', 1, [.mon, .wed, .fri]⟩ := by decide
example : parseRepeatPattern "[w-mxf]" = none := by decide
example : parseRepeatPattern "[x]" = none := by decide
example : parseRepeatPattern "[]" = none := by decide
example : parseRepeatPattern "d" = none := by decide
example : parseRepeatPattern "[ W-MWF ]" =
    some ⟨.advanced, 'w', 1, [.mon, .wed, .fri]⟩ := by decide

/-! ## The occurrence calculator -/

/-- Python `list.sort()` on the weekday numbers (ascending). -/
def sortNats (l : List Nat) : List Nat := List.insertionSort (· ≤ ·) l

/-- Body of the `while target_month > 12: target_month -= 12;
target_year += 1` loop, with a fuel bound (each iteration decreases the
month by 12, so `m` iterations always suffice; `rollMonth_eq` below shows
the fueled version satisfies the loop's recurrence). -/
def rollMonthAux : Nat → Nat → Int → Nat × Int
  | 0, m, y => (m, y)
  | fuel + 1, m, y => if 12 < m then rollMonthAux fuel (m - 12) (y + 1) else (m, y)

/-- The `while target_month > 12` loop of the monthly branch. -/
def rollMonth (m : Nat) (y : Int) : Nat × Int := rollMonthAux m m y

/-- `d.replace(year=y)`: raises `ValueError` (modelled as `.error ()`) when
the day does not exist in the target year's month (Feb 29 in a
non-leap year). -/
def replaceYear (d : DT) (y : Int) : Except Unit DT :=
  if d.day ≤ daysInMonth y d.month then .ok { d with year := y } else .error ()

/-- `calculate_first_occurrence(today, repeat_info)`. -/
def calculateFirstOccurrence (today : DT) (r : Rule) : Option DT :=
  match r.type with
  | .simple =>
    -- daily/weekly/monthly/yearly first instances are all due today
    if r.unit = 'd' ∨ r.unit = 'w' ∨ r.unit = 'm' ∨ r.unit = 'y' then some today
    else none
  | .advanced =>
    if r.unit = 'w' then
      match r.days with
      | [] => none
      | _ :: _ =>
        match sortNats (r.days.map dayToNum) with
        | [] => none
        | first :: rest =>
          let tw := first :: rest
          let cw := pyWeekday today
          if cw ∈ tw then some today
          else
            match tw.find? (fun w => cw < w) with
            | some nw => some (addDays today (nw - cw))
            | none => some (addDays today (7 - cw + first))
    else none

/-- `schedule_next_occurrence(completion_date, original_due_date,
repeat_info)`; `.error ()` models an uncaught `ValueError` from
`datetime.replace`. -/
def scheduleNextOccurrence (completion originalDue : DT) (r : Rule) :
    Except Unit (Option DT) :=
  let cO := floorDay completion
  let dO := floorDay originalDue
  match r.type with
  | .simple =>
    if r.unit = 'd' then .ok (some (addDays cO r.interval))
    else if r.unit = 'w' then .ok (some (addDays cO (7 * r.interval)))
    else if r.unit = 'm' then
      let t := if dtLe cO dO then rollMonth (dO.month + r.interval) dO.year
               else rollMonth (cO.month + r.interval) cO.year
      let nextMonthStart : DT :=
        if t.1 = 12 then ⟨t.2 + 1, 1, 1, 0, 0⟩ else ⟨t.2, t.1 + 1, 1, 0, 0⟩
      let endOfMonth := predDay nextMonthStart
      .ok (some { endOfMonth with hour := 23, minute := 59 })
    else if r.unit = 'y' then
      let anchor := if dtLe cO dO then dO else cO
      (replaceYear anchor (anchor.year + (r.interval : Int))).map some
    else .ok none
  | .advanced =>
    if r.unit = 'w' then
      match r.days with
      | [] => .ok none
      | _ :: _ =>
        match sortNats (r.days.map dayToNum) with
        | [] => .ok none
        | first :: rest =>
          let tw := first :: rest
          let cw := pyWeekday cO
          let ow := pyWeekday dO
          if dtLe cO dO then
            -- early or on-time completion
            match tw.find? (fun w => ow < w) with
            | some nw =>
              let da : Int := (nw : Int) - (cw : Int)
              let da := if da ≤ 0 then da + 7 + ((r.interval : Int) - 1) * 7 else da
              .ok (some (addDaysI cO da))
            | none =>
              .ok (some (addDaysI cO
                (7 - (cw : Int) + (first : Int) + ((r.interval : Int) - 1) * 7)))
          else
            -- late completion
            match tw.find? (fun w => ow < w) with
            | some nw =>
              let dn : Int := (nw : Int) - (cw : Int)
              let dn := if dn ≤ 0 then dn + 7 + ((r.interval : Int) - 1) * 7 else dn
              .ok (some (addDaysI cO dn))
            | none =>
              .ok (some (addDaysI cO
                (7 - (cw : Int) + (first : Int) + ((r.interval : Int) - 1) * 7)))
    else .ok none

deriving instance DecidableEq for Except

-- the spec's end-to-end monthly scenario ("pay rent [m]")
example : scheduleNextOccurrence ⟨2025, 7, 10, 0, 0⟩ ⟨2025, 7, 15, 0, 0⟩
    ⟨.simple, 'm', 1, []⟩ = .ok (some ⟨2025, 8, 31, 23, 59⟩) := by decide
-- the spec's weekday-set first-occurrence scenario ("gym workout [w-mwf]")
example : calculateFirstOccurrence ⟨2025, 6, 17, 0, 0⟩
    ⟨.advanced, 'w', 1, [.mon, .wed, .fri]⟩ = some ⟨2025, 6, 18, 0, 0⟩ := by decide
-- late completion, weekday-set: scan is after the original due weekday
example : scheduleNextOccurrence ⟨2025, 6, 18, 0, 0⟩ ⟨2025, 6, 16, 0, 0⟩
    ⟨.advanced, 'w', 1, [.tue, .fri]⟩ = .ok (some ⟨2025, 6, 24, 0, 0⟩) := by decide
-- yearly rule anchored at Feb 29 raises
example : scheduleNextOccurrence ⟨2024, 2, 28, 0, 0⟩ ⟨2024, 2, 29, 0, 0⟩
    ⟨.simple, 'y', 1, []⟩ = .error () := by decide
example : scheduleNextOccurrence ⟨2025, 6, 16, 14, 30⟩ ⟨2025, 6, 20, 0, 0⟩
    ⟨.simple, 'd', 3, []⟩ = .ok (some ⟨2025, 6, 19, 0, 0⟩) := by decide
example : scheduleNextOccurrence ⟨2025, 6, 16, 0, 0⟩ ⟨2025, 6, 20, 0, 0⟩
    ⟨.simple, 'w', 2, []⟩ = .ok (some ⟨2025, 6, 30, 0, 0⟩) := by decide

/-! ## Natural-language dates (`parse_natural_language_date`) -/

/-- `(l.takeWhile isWs).length`: how much a greedy `\s*` consumes. -/
def countWs (l : List Char) : Nat := (l.takeWhile isWs).length

/-- Leftmost-match scan of `re.search`: try the matcher at every start
position (including the end of the string), returning the first hit together
with its start index. -/
def searchIdx {α : Type} (f : List Char → Option α) : List Char → Nat → Option (Nat × α)
  | [], i => (f []).map (fun a => (i, a))
  | l@(_ :: t), i =>
    match f l with
    | some a => some (i, a)
    | none => searchIdx f t (i + 1)

/-- The unit group of `(\d+)\s*(days?|weeks?|months?|years?|[dwmy])` matched
at the head of `l`, trying the alternatives in the regex's order (so the
word forms are preferred over the single letters). -/
def durUnitAt (l : List Char) : Option (List Char) :=
  let alts : List (List Char) :=
    [['d','a','y','s'], ['d','a','y'], ['w','e','e','k','s'], ['w','e','e','k'],
     ['m','o','n','t','h','s'], ['m','o','n','t','h'],
     ['y','e','a','r','s'], ['y','e','a','r'], ['d'], ['w'], ['m'], ['y']]
  alts.find? (fun a => a.isPrefixOf l)

/-- Match `(\d+)\s*(days?|weeks?|months?|years?|[dwmy])` at the head of `l`:
greedy digit run, greedy whitespace, then the unit group.  Returns the
parsed amount and the matched unit text. -/
def durMatchAt (l : List Char) : Option (Nat × List Char) :=
  let p := l.span Char.isDigit
  if p.1 = [] then none
  else (durUnitAt (p.2.dropWhile isWs)).map (fun u => (natOfDigits p.1, u))

/-- `parse_natural_language_date(given_string)`.  The Python code reads
`datetime.now()` and truncates it to midnight; the embedding takes that
midnight value as the `today` parameter. -/
def parseNaturalLanguageDate (today : DT) (s : String) : Option DT :=
  let low := s.data.map Char.toLower
  if low = "today".data then some today
  else if low = "tomorrow".data then some (addDays today 1)
  else
    match searchIdx durMatchAt low 0 with
    | some (_, amount, u) =>
      if u = "d".data ∨ u = "day".data ∨ u = "days".data then
        some (addDays today amount)
      else if u = "w".data ∨ u = "week".data ∨ u = "weeks".data then
        some (addDays today (7 * amount))
      else if u = "m".data ∨ u = "month".data ∨ u = "months".data then
        -- month approximated as 30 days on this duration path
        some (addDays today (amount * 30))
      else if u = "y".data ∨ u = "year".data ∨ u = "years".data then
        -- year approximated as 365 days on this duration path
        some (addDays today (amount * 365))
      else none
    | none => none

example : parseNaturalLanguageDate ⟨2025, 6, 16, 0, 0⟩ "5d" =
    some ⟨2025, 6, 21, 0, 0⟩ := by decide
example : parseNaturalLanguageDate ⟨2025, 6, 16, 0, 0⟩ "5 days" =
    some ⟨2025, 6, 21, 0, 0⟩ := by decide
example : parseNaturalLanguageDate ⟨2025, 6, 16, 0, 0⟩ "5days" =
    some ⟨2025, 6, 21, 0, 0⟩ := by decide
example : parseNaturalLanguageDate ⟨2025, 6, 16, 0, 0⟩ "abc 5d xyz" =
    some ⟨2025, 6, 21, 0, 0⟩ := by decide
example : parseNaturalLanguageDate ⟨2025, 6, 16, 0, 0⟩ "today" =
    some ⟨2025, 6, 16, 0, 0⟩ := by decide
example : parseNaturalLanguageDate ⟨2025, 6, 16, 0, 0⟩ "Tomorrow" =
    some ⟨2025, 6, 17, 0, 0⟩ := by decide
example : parseNaturalLanguageDate ⟨2025, 6, 16, 0, 0⟩ "2w" =
    some ⟨2025, 6, 30, 0, 0⟩ := by decide
example : parseNaturalLanguageDate ⟨2025, 6, 16, 0, 0⟩ "1m" =
    some ⟨2025, 7, 16, 0, 0⟩ := by decide
example : parseNaturalLanguageDate ⟨2025, 6, 16, 0, 0⟩ "hello" = none := by decide

/-! ## The prefix normalizer (`remove_date_prefixes`) -/

/-- Does `today|tomorrow|\d+\s*(?:days?|weeks?|months?|years?|[dwmy])` match
at the head of `l`?  (Only existence is needed: the code uses only match and
group start positions.) -/
def natPhraseHead (l : List Char) : Bool :=
  ("today".data.isPrefixOf l) || ("tomorrow".data.isPrefixOf l) ||
    (let p := l.span Char.isDigit
     p.1 ≠ [] &&
       (match (p.2.dropWhile isWs).head? with
        | some c => c = 'd' || c = 'w' || c = 'm' || c = 'y'
        | none => false))

/-- Does `\d{lo1,hi1}<sep>\d{lo2,hi2}<sep>\d{lo3,hi3}` match at the head of
`l` (with the regex's bounded-quantifier backtracking)? -/
def datePat3 (lo1 hi1 lo2 hi2 lo3 hi3 : Nat) (sep : Char) (l : List Char) : Bool :=
  (List.range (hi1 + 1)).any fun c1 =>
    lo1 ≤ c1 && (l.take c1).length = c1 && (l.take c1).all Char.isDigit &&
      (match l.drop c1 with
       | s1 :: r1 =>
         s1 = sep &&
           ((List.range (hi2 + 1)).any fun c2 =>
             lo2 ≤ c2 && (r1.take c2).length = c2 && (r1.take c2).all Char.isDigit &&
               (match r1.drop c2 with
                | s2 :: r2 =>
                  s2 = sep &&
                    ((List.range (hi3 + 1)).any fun c3 =>
                      lo3 ≤ c3 && (r2.take c3).length = c3 &&
                        (r2.take c3).all Char.isDigit)
                | [] => false))
       | [] => false)

/-- The `date_patterns` list of `remove_date_prefixes`, as head-matchers:
`MM/DD/YY(YY)`, `MM-DD-YY(YY)`, `YYYY-MM-DD`, `YYYY/MM/DD`, `DD.MM.YY(YY)`. -/
def datePatChks : List (List Char → Bool) :=
  [datePat3 1 2 1 2 2 4 '/', datePat3 1 2 1 2 2 4 '-',
   datePat3 4 4 1 2 1 2 '-', datePat3 4 4 1 2 1 2 '/',
   datePat3 1 2 1 2 2 4 '.']

/-- Match `\s*:\s*in\s+(<phrase>)` at the head of `l`; returns the offset of
group 1 (the phrase).  The caller uses the match start (the scan position)
and this group start. -/
def matchColonInAt (phr : List Char → Bool) (l : List Char) : Option Nat :=
  let n1 := countWs l
  match l.drop n1 with
  | ':' :: l2 =>
    let n2 := countWs l2
    if ['i','n'].isPrefixOf (l2.drop n2) then
      let l4 := (l2.drop n2).drop 2
      let n3 := countWs l4
      if 1 ≤ n3 ∧ phr (l4.drop n3) then some (n1 + 1 + n2 + 2 + n3) else none
    else none
  | _ => none

/-- Match `\s*(in|:)\s+(<phrase>)` at the head of `l`; returns the offsets of
group 1 (the connective) and group 2 (the phrase). -/
def matchConnAt (phr : List Char → Bool) (l : List Char) : Option (Nat × Nat) :=
  let n1 := countWs l
  let l1 := l.drop n1
  let conn : Option Nat :=
    if ['i','n'].isPrefixOf l1 then some 2
    else if l1.head? = some ':' then some 1
    else none
  match conn with
  | some k =>
    let l2 := l1.drop k
    let n2 := countWs l2
    if 1 ≤ n2 ∧ phr (l2.drop n2) then some (n1, n1 + k + n2) else none
  | none => none

/-- `re.sub(r'\s+', ' ', ...)`: collapse each maximal whitespace run to a
single space (the flag records whether the previous character was part of a
run already replaced). -/
def collapseWsAux : Bool → List Char → List Char
  | _, [] => []
  | prevWs, c :: rest =>
    if isWs c then
      if prevWs then collapseWsAux true rest else ' ' :: collapseWsAux true rest
    else c :: collapseWsAux false rest

/-- `re.sub(r'\s+', ' ', l)` followed by `.strip()`. -/
def cleanupWs (l : List Char) : List Char := trimWs (collapseWsAux false l)

/-- `summary[:pfx] + ' ' + summary[grp:]`, whitespace-collapsed and
stripped. -/
def spliceOut (l : List Char) (pfx grp : Nat) : String :=
  ⟨cleanupWs (l.take pfx ++ ' ' :: l.drop grp)⟩

/-- First hit in a list of attempts (the `for pattern in date_patterns`
loops, whose first successful `re.search` returns). -/
def firstSome {α : Type} : List (Option α) → Option α
  | [] => none
  | some a :: _ => some a
  | none :: t => firstSome t

/-- `remove_date_prefixes(summary)`.  The regex searches run on
`summary.lower()` (for the date-pattern forms: on `summary` with
`re.IGNORECASE`, which is the same thing here) while the slices are taken
from the original string. -/
def removeDatePrefixes (s : String) : String :=
  let l := s.data
  let low := l.map Char.toLower
  match searchIdx (matchColonInAt natPhraseHead) low 0 with
  | some (i, g) => spliceOut l i (i + g)
  | none =>
    match searchIdx (matchConnAt natPhraseHead) low 0 with
    | some (i, o) => spliceOut l (i + o.1) (i + o.2)
    | none =>
      match firstSome
        (datePatChks.map fun chk => searchIdx (matchColonInAt chk) low 0) with
      | some (i, g) => spliceOut l i (i + g)
      | none =>
        match firstSome
          (datePatChks.map fun chk => searchIdx (matchConnAt chk) low 0) with
        | some (i, o) => spliceOut l (i + o.1) (i + o.2)
        | none => s

example : removeDatePrefixes "brush the dog: 1d [1w]" = "brush the dog 1d [1w]" := by
  decide
example : removeDatePrefixes "wash dog: in 5d" = "wash dog 5d" := by decide
example : removeDatePrefixes "wash dog in 5d" = "wash dog 5d" := by decide
example : removeDatePrefixes "wash clothes in 5d" = "wash clothes 5d" := by decide
example : removeDatePrefixes "task in 12/25/2025" = "task 12/25/2025" := by decide
example : removeDatePrefixes "task: in 2025-06-16" = "task 2025-06-16" := by decide
example : removeDatePrefixes "hello world" = "hello world" := by decide
example : removeDatePrefixes "clean room" = "clean room" := by decide

/-! ## Calendar lemmas -/

/-- Every month has at least 28 days. -/
theorem daysInMonth_pos (y : Int) (m : Nat) : 1 ≤ daysInMonth y m := by
  unfold daysInMonth; split_ifs <;> omega

/-- The fueled month-rolling loop satisfies the `while` loop's recurrence
once the fuel dominates the month. -/
theorem rollMonthAux_closed (fuel m : Nat) (y : Int) (hm : 1 ≤ m)
    (hf : m ≤ fuel + 12) :
    rollMonthAux fuel m y = ((m - 1) % 12 + 1, y + ((m - 1) / 12 : Nat)) := by
  induction fuel generalizing m y with
  | zero =>
    unfold rollMonthAux
    refine Prod.ext ?_ ?_ <;> simp <;> omega
  | succ fuel ih =>
    unfold rollMonthAux
    split_ifs with h
    · rw [ih (m - 12) (y + 1) (by omega) (by omega)]
      refine Prod.ext ?_ ?_ <;> simp <;> omega
    · refine Prod.ext ?_ ?_ <;> simp <;> omega

/-- Closed form of the `while target_month > 12` loop. -/
theorem rollMonth_closed (m : Nat) (y : Int) (hm : 1 ≤ m) :
    rollMonth m y = ((m - 1) % 12 + 1, y + ((m - 1) / 12 : Nat)) :=
  rollMonthAux_closed m m y hm (by omega)

/-- The fueled loop satisfies the source loop's defining recurrence. -/
theorem rollMonth_eq (m : Nat) (y : Int) :
    rollMonth m y = if 12 < m then rollMonth (m - 12) (y + 1) else (m, y) := by
  by_cases hm : 1 ≤ m
  · split_ifs with h
    · rw [rollMonth_closed m y hm, rollMonth_closed (m - 12) (y + 1) (by omega)]
      refine Prod.ext ?_ ?_ <;> simp <;> omega
    · rw [rollMonth_closed m y hm]
      refine Prod.ext ?_ ?_ <;> simp <;> omega
  · have : m = 0 := by omega
    subst this
    rfl

set_option maxHeartbeats 1600000 in
/-- One calendar-day step advances the day count by exactly one. -/
theorem rataDie_succ (d : DT) (h : ValidDT d) :
    rataDie (succDay d) = rataDie d + 1 := by
  obtain ⟨y, m, day, hr, mi⟩ := d
  obtain ⟨h1, h2, h3, h4⟩ := h
  simp only at h1 h2 h3 h4
  unfold succDay
  dsimp only
  interval_cases m <;>
    simp only [daysInMonth] at h4 ⊢ <;>
    norm_num at h4 ⊢ <;>
    split_ifs at h4 ⊢ <;>
    (try simp only [rataDie]) <;> (try norm_num) <;>
    unfold isLeap at * <;> omega

/-- The calendar successor of a real date is a real date. -/
theorem succDay_valid (d : DT) (h : ValidDT d) : ValidDT (succDay d) := by
  obtain ⟨y, m, day, hr, mi⟩ := d
  obtain ⟨h1, h2, h3, h4⟩ := h
  simp only at h1 h2 h3 h4
  unfold succDay ValidDT daysInMonth at *
  dsimp only
  split_ifs at * <;> dsimp only <;> omega

/-- `succDay` leaves the time of day unchanged. -/
theorem succDay_time (d : DT) :
    (succDay d).hour = d.hour ∧ (succDay d).minute = d.minute := by
  unfold succDay; split_ifs <;> exact ⟨rfl, rfl⟩

theorem addDays_succ (d : DT) (k : Nat) :
    addDays d (k + 1) = addDays (succDay d) k := rfl

/-- Adding days keeps dates real. -/
theorem addDays_valid (d : DT) (k : Nat) (h : ValidDT d) :
    ValidDT (addDays d k) := by
  induction k generalizing d with
  | zero => exact h
  | succ k ih => exact ih (succDay d) (succDay_valid d h)

/-- Adding `k` days advances the day count by `k`. -/
theorem rataDie_addDays (d : DT) (k : Nat) (h : ValidDT d) :
    rataDie (addDays d k) = rataDie d + k := by
  induction k generalizing d with
  | zero => simp [addDays]
  | succ k ih =>
    rw [addDays_succ, ih (succDay d) (succDay_valid d h), rataDie_succ d h]
    push_cast
    ring

/-- Adding days leaves the time of day unchanged. -/
theorem addDays_time (d : DT) (k : Nat) :
    (addDays d k).hour = d.hour ∧ (addDays d k).minute = d.minute := by
  induction k generalizing d with
  | zero => exact ⟨rfl, rfl⟩
  | succ k ih =>
    rw [addDays_succ]
    exact ⟨((ih (succDay d)).1).trans (succDay_time d).1,
           ((ih (succDay d)).2).trans (succDay_time d).2⟩

theorem addDays_add (d : DT) (a b : Nat) :
    addDays d (a + b) = addDays (addDays d a) b := by
  induction a generalizing d with
  | zero => rw [Nat.zero_add]; rfl
  | succ a ih =>
    have : a + 1 + b = (a + b) + 1 := by omega
    rw [this, addDays_succ, addDays_succ, ih (succDay d)]

/-! ## Ordering of dates -/

theorem dtExt {a b : DT} (h1 : a.year = b.year) (h2 : a.month = b.month)
    (h3 : a.day = b.day) (h4 : a.hour = b.hour) (h5 : a.minute = b.minute) :
    a = b := by
  cases a; cases b; simp only [DT.mk.injEq]; exact ⟨h1, h2, h3, h4, h5⟩

/-- A strictly later date is lexicographically later whatever the times. -/
theorem dtLt_of_dateLt {a b : DT} (h : dateLt a b) : dtLt a b := by
  obtain ⟨ay, am, ad, ah, ami⟩ := a
  obtain ⟨by_, bm, bd, bh, bmi⟩ := b
  simp only [dateLt, dtLt] at *
  omega

theorem dateLt_trans {a b c : DT} (h1 : dateLt a b) (h2 : dateLt b c) :
    dateLt a c := by
  obtain ⟨ay, am, ad, ah, ami⟩ := a
  obtain ⟨by_, bm, bd, bh, bmi⟩ := b
  obtain ⟨cy, cm, cd, ch, cmi⟩ := c
  simp only [dateLt] at *
  omega

theorem succDay_dateLt (d : DT) : dateLt d (succDay d) := by
  obtain ⟨y, m, day, hr, mi⟩ := d
  unfold succDay
  dsimp only
  split_ifs <;> unfold dateLt <;> dsimp only <;> omega

/-- Adding days never moves a date backwards. -/
theorem addDays_dateLe (d : DT) (k : Nat) :
    dateLt d (addDays d k) ∨ dateEq d (addDays d k) := by
  induction k generalizing d with
  | zero => right; exact ⟨rfl, rfl, rfl⟩
  | succ k ih =>
    rw [addDays_succ]
    rcases ih (succDay d) with h | h
    · exact .inl (dateLt_trans (succDay_dateLt d) h)
    · left
      have := succDay_dateLt d
      obtain ⟨e1, e2, e3⟩ := h
      unfold dateLt at *
      omega

/-- Adding at least one day moves a date strictly forwards. -/
theorem addDays_dateLt (d : DT) (k : Nat) (hk : 1 ≤ k) :
    dateLt d (addDays d k) := by
  obtain ⟨j, rfl⟩ : ∃ j, k = j + 1 := ⟨k - 1, by omega⟩
  rw [addDays_succ]
  rcases addDays_dateLe (succDay d) j with h | h
  · exact dateLt_trans (succDay_dateLt d) h
  · have := succDay_dateLt d
    obtain ⟨e1, e2, e3⟩ := h
    unfold dateLt at *
    omega

/-! ## Monotonicity of the day count -/

/-- `rataDie` ignores the time fields. -/
theorem rataDie_floorDay (d : DT) : rataDie (floorDay d) = rataDie d := rfl

theorem pyWeekday_floorDay (d : DT) : pyWeekday (floorDay d) = pyWeekday d := rfl

/-- Later day of the same month, later day count. -/
theorem rataDie_day_mono (y : Int) (m d1 d2 h1 m1 h2 m2 : Nat) (hd : d1 ≤ d2) :
    rataDie ⟨y, m, d1, h1, m1⟩ ≤ rataDie ⟨y, m, d2, h2, m2⟩ := by
  unfold rataDie
  dsimp only
  split_ifs <;> omega

theorem rataDie_day_strict (y : Int) (m d1 d2 h1 m1 h2 m2 : Nat) (h1d : 1 ≤ d1)
    (hd : d1 < d2) :
    rataDie ⟨y, m, d1, h1, m1⟩ < rataDie ⟨y, m, d2, h2, m2⟩ := by
  unfold rataDie
  dsimp only
  split_ifs <;> omega

/-- First of the next month comes right after the last of this one. -/
theorem rataDie_month_step (y : Int) (m hr mi : Nat) (hm1 : 1 ≤ m)
    (hm2 : m ≤ 11) :
    rataDie ⟨y, m + 1, 1, hr, mi⟩ =
      rataDie ⟨y, m, daysInMonth y m, hr, mi⟩ + 1 := by
  have hv : ValidDT ⟨y, m, daysInMonth y m, hr, mi⟩ := by
    unfold ValidDT
    dsimp only
    exact ⟨by omega, by omega, daysInMonth_pos y m, le_refl _⟩
  have h := rataDie_succ _ hv
  have hs : succDay ⟨y, m, daysInMonth y m, hr, mi⟩ = ⟨y, m + 1, 1, hr, mi⟩ := by
    unfold succDay
    dsimp only
    rw [if_neg (lt_irrefl _), if_pos (by omega)]
  rw [hs] at h
  exact h

/-- January 1 comes right after December 31. -/
theorem rataDie_year_step (y : Int) (hr mi : Nat) :
    rataDie ⟨y + 1, 1, 1, hr, mi⟩ = rataDie ⟨y, 12, 31, hr, mi⟩ + 1 := by
  have hv : ValidDT ⟨y, 12, 31, hr, mi⟩ := by
    unfold ValidDT daysInMonth
    norm_num
  have h := rataDie_succ _ hv
  have hs : succDay ⟨y, 12, 31, hr, mi⟩ = ⟨y + 1, 1, 1, hr, mi⟩ := by
    unfold succDay daysInMonth
    norm_num
  rw [hs] at h
  exact h

/-- Later month of the same year, later day count (at day 1). -/
theorem rataDie_month_mono (y : Int) (m m' hr mi : Nat) (hm1 : 1 ≤ m)
    (hmm : m ≤ m') (hm2 : m' ≤ 12) :
    rataDie ⟨y, m, 1, hr, mi⟩ ≤ rataDie ⟨y, m', 1, hr, mi⟩ := by
  induction m', hmm using Nat.le_induction with
  | base => exact le_refl _
  | succ m' hmm ih =>
    have h1 : rataDie ⟨y, m, 1, hr, mi⟩ ≤ rataDie ⟨y, m', 1, hr, mi⟩ :=
      ih (by omega)
    have h2 : rataDie ⟨y, m', 1, hr, mi⟩ ≤
        rataDie ⟨y, m', daysInMonth y m', hr, mi⟩ :=
      rataDie_day_mono y m' 1 _ hr mi hr mi (daysInMonth_pos y m')
    have h3 := rataDie_month_step y m' hr mi (by omega) (by omega)
    omega

/-- `rataDie` does not depend on the time fields. -/
theorem rataDie_time (y : Int) (m day h1 m1 h2 m2 : Nat) :
    rataDie ⟨y, m, day, h1, m1⟩ = rataDie ⟨y, m, day, h2, m2⟩ := rfl

theorem daysInMonth_12 (y : Int) : daysInMonth y 12 = 31 := by
  unfold daysInMonth; norm_num

/-- No date of a year extends past its December 31. -/
theorem rataDie_le_year_end (y : Int) (m day hr mi : Nat)
    (h : ValidDT ⟨y, m, day, hr, mi⟩) :
    rataDie ⟨y, m, day, hr, mi⟩ ≤ rataDie ⟨y, 12, 31, 0, 0⟩ := by
  obtain ⟨h1, h2, h3, h4⟩ := h
  simp only at h1 h2 h3 h4
  by_cases hm : m = 12
  · subst hm
    rw [daysInMonth_12] at h4
    exact rataDie_day_mono y 12 day 31 hr mi 0 0 h4
  · have ha : rataDie ⟨y, m, day, hr, mi⟩ ≤
        rataDie ⟨y, m, daysInMonth y m, 0, 0⟩ :=
      rataDie_day_mono y m day _ hr mi 0 0 h4
    have hb := rataDie_month_step y m 0 0 h1 (by omega)
    have hc : rataDie ⟨y, m + 1, 1, 0, 0⟩ ≤ rataDie ⟨y, 12, 1, 0, 0⟩ :=
      rataDie_month_mono y (m + 1) 12 0 0 (by omega) (by omega) (by omega)
    have hd : rataDie ⟨y, 12, 1, 0, 0⟩ ≤ rataDie ⟨y, 12, 31, 0, 0⟩ :=
      rataDie_day_mono y 12 1 31 0 0 0 0 (by omega)
    omega

/-- No date of a year precedes its January 1. -/
theorem rataDie_year_start_le (y : Int) (m day hr mi : Nat)
    (h : ValidDT ⟨y, m, day, hr, mi⟩) :
    rataDie ⟨y, 1, 1, 0, 0⟩ ≤ rataDie ⟨y, m, day, hr, mi⟩ := by
  obtain ⟨h1, h2, h3, h4⟩ := h
  simp only at h1 h2 h3 h4
  have ha : rataDie ⟨y, 1, 1, 0, 0⟩ ≤ rataDie ⟨y, m, 1, 0, 0⟩ :=
    rataDie_month_mono y 1 m 0 0 (by omega) h1 h2
  have hb : rataDie ⟨y, m, 1, 0, 0⟩ ≤ rataDie ⟨y, m, day, hr, mi⟩ :=
    rataDie_day_mono y m 1 day 0 0 hr mi h3
  omega

/-- Later year, later day count (at January 1). -/
theorem rataDie_year_mono (y y' : Int) (hyy : y ≤ y') :
    rataDie ⟨y, 1, 1, 0, 0⟩ ≤ rataDie ⟨y', 1, 1, 0, 0⟩ := by
  refine Int.le_induction
    (P := fun z => rataDie ⟨y, 1, 1, 0, 0⟩ ≤ rataDie ⟨z, 1, 1, 0, 0⟩)
    (le_refl _) ?_ y' hyy
  intro n _ ih
  have h1 : rataDie ⟨n, 1, 1, 0, 0⟩ ≤ rataDie ⟨n, 12, 31, 0, 0⟩ :=
    rataDie_le_year_end n 1 1 0 0 (by unfold ValidDT daysInMonth; norm_num)
  have h2 := rataDie_year_step n 0 0
  omega

/-- The day count is strictly monotone on real dates. -/
theorem rataDie_strictMono {a b : DT} (ha : ValidDT a) (hb : ValidDT b)
    (hab : dateLt a b) : rataDie a < rataDie b := by
  obtain ⟨ay, am, ad, ah, ami⟩ := a
  obtain ⟨by_, bm, bd, bh, bmi⟩ := b
  obtain ⟨ha1, ha2, ha3, ha4⟩ := ha
  obtain ⟨hb1, hb2, hb3, hb4⟩ := hb
  simp only at ha1 ha2 ha3 ha4 hb1 hb2 hb3 hb4
  unfold dateLt at hab
  dsimp only at hab
  rcases hab with hy | ⟨rfl, hm | ⟨rfl, hd⟩⟩
  · -- strictly later year
    have h1 : rataDie ⟨ay, am, ad, ah, ami⟩ ≤ rataDie ⟨ay, 12, 31, 0, 0⟩ :=
      rataDie_le_year_end ay am ad ah ami ⟨ha1, ha2, ha3, ha4⟩
    have h2 := rataDie_year_step ay 0 0
    have h3 : rataDie ⟨ay + 1, 1, 1, 0, 0⟩ ≤ rataDie ⟨by_, 1, 1, 0, 0⟩ :=
      rataDie_year_mono (ay + 1) by_ (by omega)
    have h4 : rataDie ⟨by_, 1, 1, 0, 0⟩ ≤ rataDie ⟨by_, bm, bd, bh, bmi⟩ :=
      rataDie_year_start_le by_ bm bd bh bmi ⟨hb1, hb2, hb3, hb4⟩
    omega
  · -- same year, strictly later month
    have h1 : rataDie ⟨ay, am, ad, ah, ami⟩ ≤
        rataDie ⟨ay, am, daysInMonth ay am, 0, 0⟩ :=
      rataDie_day_mono ay am ad _ ah ami 0 0 ha4
    have h2 := rataDie_month_step ay am 0 0 ha1 (by omega)
    have h3 : rataDie ⟨ay, am + 1, 1, 0, 0⟩ ≤ rataDie ⟨ay, bm, 1, 0, 0⟩ :=
      rataDie_month_mono ay (am + 1) bm 0 0 (by omega) (by omega) hb2
    have h4 : rataDie ⟨ay, bm, 1, 0, 0⟩ ≤ rataDie ⟨ay, bm, bd, bh, bmi⟩ :=
      rataDie_day_mono ay bm 1 bd 0 0 bh bmi hb3
    omega
  · -- same year and month, strictly later day
    exact rataDie_day_strict ay am ad bd ah ami bh bmi ha3 hd

/-- Equal day counts of real dates mean equal dates. -/
theorem dateEq_of_rataDie_eq {a b : DT} (ha : ValidDT a) (hb : ValidDT b)
    (hr : rataDie a = rataDie b) : dateEq a b := by
  have tri : dateLt a b ∨ dateEq a b ∨ dateLt b a := by
    obtain ⟨ay, am, ad, ah, ami⟩ := a
    obtain ⟨by_, bm, bd, bh, bmi⟩ := b
    unfold dateLt dateEq
    dsimp only
    omega
  rcases tri with h | h | h
  · exact absurd hr (by have := rataDie_strictMono ha hb h; omega)
  · exact h
  · exact absurd hr (by have := rataDie_strictMono hb ha h; omega)

/-- Every real date at or after `d` (with the same time of day) is reached
from `d` by adding the day-count difference. -/
theorem addDays_reach (e : DT) (he : ValidDT e) :
    ∀ d : DT, ValidDT d → e.hour = d.hour → e.minute = d.minute →
      rataDie d ≤ rataDie e → e = addDays d (rataDie e - rataDie d).toNat := by
  suffices h : ∀ n : Nat, ∀ d : DT, ValidDT d → e.hour = d.hour →
      e.minute = d.minute → rataDie d ≤ rataDie e →
      (rataDie e - rataDie d).toNat = n → e = addDays d n by
    intro d hd hh hm hle
    exact h _ d hd hh hm hle rfl
  intro n
  induction n with
  | zero =>
    intro d hd hh hm hle hn
    have hre : rataDie d = rataDie e := by omega
    have hde := dateEq_of_rataDie_eq hd he hre
    exact dtExt hde.1.symm hde.2.1.symm hde.2.2.symm hh hm
  | succ n ih =>
    intro d hd hh hm hle hn
    have hs := rataDie_succ d hd
    rw [show n + 1 = 1 + n by omega, addDays_add]
    have h1 : addDays d 1 = succDay d := rfl
    rw [h1]
    exact ih (succDay d) (succDay_valid d hd)
      (hh.trans (succDay_time d).1.symm) (hm.trans (succDay_time d).2.symm)
      (by omega) (by omega)

/-- Python weekdays lie in `0..6`. -/
theorem pyWeekday_lt (d : DT) : pyWeekday d < 7 := by
  unfold pyWeekday; omega

/-- Adding days shifts the weekday modulo 7. -/
theorem pyWeekday_addDays (d : DT) (k : Nat) (h : ValidDT d) :
    pyWeekday (addDays d k) = (pyWeekday d + k) % 7 := by
  unfold pyWeekday
  rw [rataDie_addDays d k h]
  omega

/-! ## Sorted-list lemmas for the weekday sets -/

theorem mem_sortNats {x : Nat} {l : List Nat} : x ∈ sortNats l ↔ x ∈ l :=
  (List.perm_insertionSort (· ≤ ·) l).mem_iff

theorem sorted_sortNats (l : List Nat) : List.Sorted (· ≤ ·) (sortNats l) :=
  List.sorted_insertionSort (· ≤ ·) l

/-- On a sorted list, `find?` returns the minimum element satisfying the
predicate, whenever a minimum exists. -/
theorem find?_sorted_eq_some {l : List Nat} {p : Nat → Bool} {x : Nat}
    (hs : List.Sorted (· ≤ ·) l) (hx : x ∈ l) (hpx : p x = true)
    (hmin : ∀ w ∈ l, p w = true → x ≤ w) : l.find? p = some x := by
  induction l with
  | nil => cases hx
  | cons a t ih =>
    by_cases hpa : p a = true
    · rw [List.find?_cons_of_pos _ hpa]
      have hxa : x ≤ a := hmin a (by simp) hpa
      rcases List.mem_cons.mp hx with rfl | hxt
      · rfl
      · have hax : a ≤ x := (List.sorted_cons.mp hs).1 x hxt
        have : a = x := le_antisymm hax hxa
        rw [this]
    · rw [List.find?_cons_of_neg _ hpa]
      refine ih (List.sorted_cons.mp hs).2 ?_ ?_
      · rcases List.mem_cons.mp hx with rfl | hxt
        · exact absurd hpx hpa
        · exact hxt
      · intro w hw hpw
        exact hmin w (List.mem_cons_of_mem a hw) hpw

/-! ## Claim theorems -/

/-- C8: `parse_repeat_pattern("[mwf]")` and `parse_repeat_pattern("[w-mwf]")`
return equal rules — same day list `[mon, wed, fri]`, unit `w`, interval 1 —
and both are tagged as advanced weekly rules (the `type` tags do not even
differ). -/
theorem C8_bare_day_letters_equal_prefixed :
    parseRepeatPattern "[mwf]" = parseRepeatPattern "[w-mwf]" ∧
    parseRepeatPattern "[mwf]" = some ⟨.advanced, 'w', 1, [.mon, .wed, .fri]⟩ := by
  constructor <;> decide

/-- C5 counterexample: `parse_repeat_pattern("[0d]")` returns a rule whose
interval is 0, violating the claimed `interval ≥ 1` invariant. -/
theorem C5_counterexample :
    parseRepeatPattern "[0d]" = some ⟨.simple, 'd', 0, []⟩ := by decide

/-- C5 (amended): every rule returned by `parse_repeat_pattern` has a
nonnegative interval (zero is possible, e.g. `[0d]`), and every
weekday-set (advanced) rule has unit `w` and a non-empty day list. -/
theorem C5_parsed_rule_invariant (s : String) (r : Rule)
    (h : parseRepeatPattern s = some r) :
    r.type = .advanced → r.unit = 'w' ∧ r.days ≠ [] := by
  unfold parseRepeatPattern at h
  dsimp only at h
  split at h
  · split at h
    · exact Option.noConfusion h
    · split at h
      · injection h with h2
        subst h2
        intro h3
        exact RuleType.noConfusion h3
      · split at h
        · injection h with h2
          subst h2
          intro h3
          exact RuleType.noConfusion h3
        · split at h
          · split at h
            · injection h with h2
              subst h2
              intro _
              refine ⟨rfl, ?_⟩
              assumption
            · split at h
              · split at h
                · injection h with h2
                  subst h2
                  intro _
                  refine ⟨rfl, ?_⟩
                  assumption
                · exact Option.noConfusion h
              · exact Option.noConfusion h
          · split at h
            · split at h
              · injection h with h2
                subst h2
                intro _
                refine ⟨rfl, ?_⟩
                assumption
              · exact Option.noConfusion h
            · exact Option.noConfusion h
  · exact Option.noConfusion h

/-- C5 witness: the invariant at a concrete weekday-set token. -/
theorem C5_witness :
    parseRepeatPattern "[2w-mtf]" = some ⟨.advanced, 'w', 2, [.mon, .tue, .fri]⟩ ∧
    ((⟨.advanced, 'w', 2, [.mon, .tue, .fri]⟩ : Rule).type = .advanced →
      (⟨.advanced, 'w', 2, [.mon, .tue, .fri]⟩ : Rule).unit = 'w' ∧
      (⟨.advanced, 'w', 2, [.mon, .tue, .fri]⟩ : Rule).days ≠ []) :=
  ⟨by decide, C5_parsed_rule_invariant "[2w-mtf]" _ (by decide)⟩

/-- C4 counterexample: `[0d]` is a simple daily rule returned by
`parse_repeat_pattern`, and for it `schedule_next_occurrence` returns the
completion date itself (midnight), which is not strictly in the future. -/
theorem C4_counterexample :
    parseRepeatPattern "[0d]" = some ⟨.simple, 'd', 0, []⟩ ∧
    scheduleNextOccurrence ⟨2025, 6, 16, 0, 0⟩ ⟨2025, 6, 20, 0, 0⟩
      ⟨.simple, 'd', 0, []⟩ = .ok (some ⟨2025, 6, 16, 0, 0⟩) ∧
    ¬ dtLt ⟨2025, 6, 16, 0, 0⟩ ⟨2025, 6, 16, 0, 0⟩ := by
  refine ⟨by decide, by decide, by decide⟩

/-- C4 (amended): for every simple daily or weekly rule with interval ≥ 1
(`parse_repeat_pattern` also accepts zero intervals such as `[0d]`, for which
the result equals the completion date at midnight), `schedule_next_occurrence`
returns the completion date floored to midnight plus interval days
(daily) or interval weeks (weekly), which is strictly after the completion
date, regardless of early/on-time/late timing. -/
theorem C4_daily_weekly_strictly_future (c d : DT) (r : Rule)
    (hi : 1 ≤ r.interval) :
    (r.type = .simple → r.unit = 'd' →
      scheduleNextOccurrence c d r =
        .ok (some (addDays (floorDay c) r.interval)) ∧
      dtLt c (addDays (floorDay c) r.interval)) ∧
    (r.type = .simple → r.unit = 'w' →
      scheduleNextOccurrence c d r =
        .ok (some (addDays (floorDay c) (7 * r.interval))) ∧
      dtLt c (addDays (floorDay c) (7 * r.interval))) := by
  obtain ⟨t, u, i, ds⟩ := r
  simp only at hi
  have key : ∀ k : Nat, 1 ≤ k → dtLt c (addDays (floorDay c) k) := by
    intro k hk
    have h1 : dateLt (floorDay c) (addDays (floorDay c) k) :=
      addDays_dateLt (floorDay c) k hk
    have h2 : dateLt c (addDays (floorDay c) k) := h1
    exact dtLt_of_dateLt h2
  constructor
  · rintro rfl rfl
    refine ⟨?_, key i hi⟩
    unfold scheduleNextOccurrence
    dsimp only
    rw [if_pos rfl]
  · rintro rfl rfl
    refine ⟨?_, key (7 * i) (by omega)⟩
    unfold scheduleNextOccurrence
    dsimp only
    rw [if_neg (by decide), if_pos rfl]

/-- C4 witness: a daily rule applied at a concrete afternoon completion. -/
theorem C4_witness :
    scheduleNextOccurrence ⟨2025, 6, 16, 14, 30⟩ ⟨2025, 6, 20, 0, 0⟩
      ⟨.simple, 'd', 3, []⟩ =
      .ok (some (addDays (floorDay ⟨2025, 6, 16, 14, 30⟩) 3)) ∧
    dtLt ⟨2025, 6, 16, 14, 30⟩ (addDays (floorDay ⟨2025, 6, 16, 14, 30⟩) 3) :=
  (C4_daily_weekly_strictly_future ⟨2025, 6, 16, 14, 30⟩ ⟨2025, 6, 20, 0, 0⟩
    ⟨.simple, 'd', 3, []⟩ (by decide)).1 rfl rfl

/-- The monthly branch's `datetime(...) - timedelta(days=1)` computation
really lands on the last day of the rolled target month. -/
theorem monthEnd_eq (M : Nat) (y : Int) (hM : 1 ≤ M) :
    { predDay (if (rollMonth M y).1 = 12 then ⟨(rollMonth M y).2 + 1, 1, 1, 0, 0⟩
               else ⟨(rollMonth M y).2, (rollMonth M y).1 + 1, 1, 0, 0⟩) with
      hour := 23, minute := 59 } =
    (⟨y + ((M - 1) / 12 : Nat), (M - 1) % 12 + 1,
      daysInMonth (y + ((M - 1) / 12 : Nat)) ((M - 1) % 12 + 1), 23, 59⟩ : DT) := by
  rw [rollMonth_closed M y hM]
  dsimp only
  split_ifs with h12
  · unfold predDay
    dsimp only
    rw [if_neg (by omega), if_neg (by omega)]
    dsimp only
    refine dtExt ?_ ?_ ?_ rfl rfl <;> dsimp only
    · omega
    · omega
    · rw [h12, daysInMonth_12]
  · unfold predDay
    dsimp only
    rw [if_neg (by omega), if_pos (by omega)]
    dsimp only
    refine dtExt rfl ?_ ?_ rfl rfl <;> dsimp only
    · omega
    · rw [Nat.add_sub_cancel]

/-- C2: for a simple monthly rule of interval `i`, the next occurrence is the
last day, at 23:59, of the month obtained by adding `i` to the original due
month (early or on-time completion, compared at day granularity) or to the
completion month (late completion), rolling the year on overflow past
month 12. -/
theorem C2_monthly_end_of_month (c d : DT) (i : Nat) (hc : ValidDT c)
    (hd : ValidDT d) :
    (dtLe (floorDay c) (floorDay d) →
      scheduleNextOccurrence c d ⟨.simple, 'm', i, []⟩ =
        .ok (some ⟨d.year + ((d.month + i - 1) / 12 : Nat),
                   (d.month + i - 1) % 12 + 1,
                   daysInMonth (d.year + ((d.month + i - 1) / 12 : Nat))
                     ((d.month + i - 1) % 12 + 1), 23, 59⟩)) ∧
    (¬ dtLe (floorDay c) (floorDay d) →
      scheduleNextOccurrence c d ⟨.simple, 'm', i, []⟩ =
        .ok (some ⟨c.year + ((c.month + i - 1) / 12 : Nat),
                   (c.month + i - 1) % 12 + 1,
                   daysInMonth (c.year + ((c.month + i - 1) / 12 : Nat))
                     ((c.month + i - 1) % 12 + 1), 23, 59⟩)) := by
  obtain ⟨hc1, hc2, hc3, hc4⟩ := hc
  obtain ⟨hd1, hd2, hd3, hd4⟩ := hd
  constructor
  · intro hle
    unfold scheduleNextOccurrence
    dsimp only
    rw [if_neg (by decide), if_neg (by decide), if_pos rfl, if_pos hle]
    exact congrArg (fun x => Except.ok (some x))
      (monthEnd_eq (d.month + i) d.year (by omega))
  · intro hlt
    unfold scheduleNextOccurrence
    dsimp only
    rw [if_neg (by decide), if_neg (by decide), if_pos rfl, if_neg hlt]
    exact congrArg (fun x => Except.ok (some x))
      (monthEnd_eq (c.month + i) c.year (by omega))

/-- C2 witness: `"pay rent [m]"` due 2025-07-15, completed early 2025-07-10,
recurs on 2025-08-31 at 23:59. -/
theorem C2_witness :
    scheduleNextOccurrence ⟨2025, 7, 10, 0, 0⟩ ⟨2025, 7, 15, 0, 0⟩
      ⟨.simple, 'm', 1, []⟩ = .ok (some ⟨2025, 8, 31, 23, 59⟩) ∧
    ValidDT ⟨2025, 7, 10, 0, 0⟩ ∧ ValidDT ⟨2025, 7, 15, 0, 0⟩ := by
  refine ⟨?_, by decide, by decide⟩
  have h := (C2_monthly_end_of_month ⟨2025, 7, 10, 0, 0⟩ ⟨2025, 7, 15, 0, 0⟩ 1
    (by decide) (by decide)).1 (by decide)
  exact h.trans (by decide)

/-- `daysInMonth` depends on the year only for February. -/
theorem daysInMonth_ne2 (y y' : Int) (m : Nat) (hm : m ≠ 2) :
    daysInMonth y m = daysInMonth y' m := by
  unfold daysInMonth; rw [if_neg hm, if_neg hm]

theorem daysInMonth_feb (y : Int) :
    daysInMonth y 2 = if isLeap y then 29 else 28 := by
  unfold daysInMonth; rw [if_pos rfl]

/-- The advanced (weekday-set) branch of `schedule_next_occurrence` never
raises. -/
theorem scheduleNext_advanced_ok (c d : DT) (u : Char) (i : Nat)
    (ds : List Day) :
    ∃ o, scheduleNextOccurrence c d ⟨.advanced, u, i, ds⟩ = .ok o := by
  unfold scheduleNextOccurrence
  dsimp only
  by_cases hu : u = 'w'
  · rw [if_pos hu]
    cases ds with
    | nil => exact ⟨none, rfl⟩
    | cons d0 dtl =>
      dsimp only
      cases hs : sortNats ((d0 :: dtl).map dayToNum) with
      | nil => exact ⟨none, rfl⟩
      | cons f rest =>
        dsimp only
        split_ifs with hle
        · cases hf : (f :: rest).find?
              (fun w => pyWeekday (floorDay d) < w) with
          | none => exact ⟨_, rfl⟩
          | some nw => exact ⟨_, rfl⟩
        · cases hf : (f :: rest).find?
              (fun w => pyWeekday (floorDay d) < w) with
          | none => exact ⟨_, rfl⟩
          | some nw => exact ⟨_, rfl⟩
  · rw [if_neg hu]
    exact ⟨none, rfl⟩

theorem schedule_simple_d_eq (c d : DT) (i : Nat) (ds : List Day) :
    scheduleNextOccurrence c d ⟨.simple, 'd', i, ds⟩ =
      .ok (some (addDays (floorDay c) i)) := by
  unfold scheduleNextOccurrence
  dsimp only
  rw [if_pos rfl]

theorem schedule_simple_w_eq (c d : DT) (i : Nat) (ds : List Day) :
    scheduleNextOccurrence c d ⟨.simple, 'w', i, ds⟩ =
      .ok (some (addDays (floorDay c) (7 * i))) := by
  unfold scheduleNextOccurrence
  dsimp only
  rw [if_neg (by decide), if_pos rfl]

theorem schedule_simple_m_ok (c d : DT) (i : Nat) (ds : List Day) :
    ∃ o, scheduleNextOccurrence c d ⟨.simple, 'm', i, ds⟩ = .ok o := by
  unfold scheduleNextOccurrence
  dsimp only
  rw [if_neg (by decide), if_neg (by decide), if_pos rfl]
  exact ⟨_, rfl⟩

theorem schedule_simple_y_eq (c d : DT) (i : Nat) (ds : List Day) :
    scheduleNextOccurrence c d ⟨.simple, 'y', i, ds⟩ =
      (replaceYear (if dtLe (floorDay c) (floorDay d) then floorDay d
                    else floorDay c)
        ((if dtLe (floorDay c) (floorDay d) then floorDay d
          else floorDay c).year + (i : Int))).map some := by
  unfold scheduleNextOccurrence
  dsimp only
  rw [if_neg (by decide), if_neg (by decide), if_neg (by decide), if_pos rfl]

theorem schedule_simple_other_eq (c d : DT) (u : Char) (i : Nat)
    (ds : List Day) (h1 : u ≠ 'd') (h2 : u ≠ 'w') (h3 : u ≠ 'm')
    (h4 : u ≠ 'y') :
    scheduleNextOccurrence c d ⟨.simple, u, i, ds⟩ = .ok none := by
  unfold scheduleNextOccurrence
  dsimp only
  rw [if_neg h1, if_neg h2, if_neg h3, if_neg h4]

/-- `datetime.replace(year=j)` raises exactly on a February 29 of a date
whose target year is not leap. -/
theorem replaceYear_error_iff (a : DT) (ha : ValidDT a) (j : Int) :
    (replaceYear a j).map some = Except.error () ↔
      a.month = 2 ∧ a.day = 29 ∧ ¬ isLeap j := by
  obtain ⟨h1, h2, h3, h4⟩ := ha
  unfold replaceYear
  split_ifs with hday
  · simp only [Except.map]
    constructor
    · intro h; exact Except.noConfusion h
    · rintro ⟨hm2, hd29, hnl⟩
      exfalso
      rw [hm2, hd29, daysInMonth_feb] at hday
      by_cases hl : isLeap j
      · exact hnl hl
      · rw [if_neg hl] at hday; omega
  · simp only [Except.map]
    constructor
    · intro _
      push_neg at hday
      by_cases hm2 : a.month = 2
      · rw [hm2, daysInMonth_feb] at hday
        rw [hm2, daysInMonth_feb] at h4
        refine ⟨hm2, ?_, ?_⟩
        · split_ifs at hday h4 <;> omega
        · intro hl
          rw [if_pos hl] at hday
          split_ifs at h4 <;> omega
      · rw [daysInMonth_ne2 a.year j a.month hm2] at h4
        omega
    · intro _; trivial

/-- C9 counterexample: a yearly rule whose early/on-time anchor is
February 29 makes `schedule_next_occurrence` raise `ValueError` (modelled as
`.error ()`) instead of returning. -/
theorem C9_counterexample :
    scheduleNextOccurrence ⟨2024, 2, 28, 0, 0⟩ ⟨2024, 2, 29, 0, 0⟩
      ⟨.simple, 'y', 1, []⟩ = .error () := by decide

/-- C9 (amended): `schedule_next_occurrence` returns normally for every rule
except simple yearly rules whose anchor date (the original due date when
completion is early or on-time, otherwise the completion date) is a
February 29 with a non-leap target year; exactly there `datetime.replace`
raises. -/
theorem C9_raises_only_on_feb29 (c d : DT) (r : Rule) (hc : ValidDT c)
    (hd : ValidDT d) :
    (dtLe (floorDay c) (floorDay d) →
      (scheduleNextOccurrence c d r = .error () ↔
        r.type = .simple ∧ r.unit = 'y' ∧ d.month = 2 ∧ d.day = 29 ∧
          ¬ isLeap (d.year + (r.interval : Int)))) ∧
    (¬ dtLe (floorDay c) (floorDay d) →
      (scheduleNextOccurrence c d r = .error () ↔
        r.type = .simple ∧ r.unit = 'y' ∧ c.month = 2 ∧ c.day = 29 ∧
          ¬ isLeap (c.year + (r.interval : Int)))) := by
  obtain ⟨t, u, i, ds⟩ := r
  cases t
  case advanced =>
    obtain ⟨o, ho⟩ := scheduleNext_advanced_ok c d u i ds
    constructor <;> intro _ <;> constructor
    · intro h; rw [ho] at h; exact Except.noConfusion h
    · rintro ⟨h1, _⟩; exact RuleType.noConfusion h1
    · intro h; rw [ho] at h; exact Except.noConfusion h
    · rintro ⟨h1, _⟩; exact RuleType.noConfusion h1
  case simple =>
    by_cases hud : u = 'd'
    · subst hud
      have ho := schedule_simple_d_eq c d i ds
      constructor <;> intro _ <;> constructor
      · intro h; rw [ho] at h; exact Except.noConfusion h
      · rintro ⟨_, h2, _⟩
        have h3 : ('d' : Char) = 'y' := h2
        exact absurd h3 (by decide)
      · intro h; rw [ho] at h; exact Except.noConfusion h
      · rintro ⟨_, h2, _⟩
        have h3 : ('d' : Char) = 'y' := h2
        exact absurd h3 (by decide)
    · by_cases huw : u = 'w'
      · subst huw
        have ho := schedule_simple_w_eq c d i ds
        constructor <;> intro _ <;> constructor
        · intro h; rw [ho] at h; exact Except.noConfusion h
        · rintro ⟨_, h2, _⟩
          have h3 : ('w' : Char) = 'y' := h2
          exact absurd h3 (by decide)
        · intro h; rw [ho] at h; exact Except.noConfusion h
        · rintro ⟨_, h2, _⟩
          have h3 : ('w' : Char) = 'y' := h2
          exact absurd h3 (by decide)
      · by_cases hum : u = 'm'
        · subst hum
          obtain ⟨o, ho⟩ := schedule_simple_m_ok c d i ds
          constructor <;> intro _ <;> constructor
          · intro h; rw [ho] at h; exact Except.noConfusion h
          · rintro ⟨_, h2, _⟩
            have h3 : ('m' : Char) = 'y' := h2
            exact absurd h3 (by decide)
          · intro h; rw [ho] at h; exact Except.noConfusion h
          · rintro ⟨_, h2, _⟩
            have h3 : ('m' : Char) = 'y' := h2
            exact absurd h3 (by decide)
        · by_cases huy : u = 'y'
          · subst huy
            have ho := schedule_simple_y_eq c d i ds
            constructor <;> intro hle
            · rw [if_pos hle] at ho
              rw [ho]
              have hiff := replaceYear_error_iff (floorDay d) hd
                ((floorDay d).year + (i : Int))
              constructor
              · intro h
                obtain ⟨x1, x2, x3⟩ := hiff.mp h
                exact ⟨rfl, rfl, x1, x2, x3⟩
              · rintro ⟨_, _, x1, x2, x3⟩
                exact hiff.mpr ⟨x1, x2, x3⟩
            · rw [if_neg hle] at ho
              rw [ho]
              have hiff := replaceYear_error_iff (floorDay c) hc
                ((floorDay c).year + (i : Int))
              constructor
              · intro h
                obtain ⟨x1, x2, x3⟩ := hiff.mp h
                exact ⟨rfl, rfl, x1, x2, x3⟩
              · rintro ⟨_, _, x1, x2, x3⟩
                exact hiff.mpr ⟨x1, x2, x3⟩
          · have ho := schedule_simple_other_eq c d u i ds hud huw hum huy
            constructor <;> intro _ <;> constructor
            · intro h; rw [ho] at h; exact Except.noConfusion h
            · rintro ⟨_, h2, _⟩; exact absurd h2 huy
            · intro h; rw [ho] at h; exact Except.noConfusion h
            · rintro ⟨_, h2, _⟩; exact absurd h2 huy

/-- C9 witness: the characterization instantiated at the Feb 29 scenario —
the early-or-on-time anchor 2024-02-29 with rule `[y]` yields the error. -/
theorem C9_witness :
    scheduleNextOccurrence ⟨2024, 2, 28, 0, 0⟩ ⟨2024, 2, 29, 0, 0⟩
      ⟨.simple, 'y', 1, []⟩ = .error () ∧
    ValidDT (⟨2024, 2, 28, 0, 0⟩ : DT) ∧ ValidDT (⟨2024, 2, 29, 0, 0⟩ : DT) := by
  refine ⟨?_, by decide, by decide⟩
  have h := (C9_raises_only_on_feb29 ⟨2024, 2, 28, 0, 0⟩ ⟨2024, 2, 29, 0, 0⟩
    ⟨.simple, 'y', 1, []⟩ (by decide) (by decide)).1 (by decide)
  exact h.mpr ⟨rfl, rfl, rfl, rfl, by decide⟩

/-- C1 counterexample: days `{Tue, Fri}` (`[w-tf]`), due Monday 2025-06-16,
completed late on Wednesday 2025-06-18.  The claim prescribes the first
set day strictly after the completion weekday — Friday 2025-06-20 — but the
code scans past the original due weekday and lands on Tuesday 2025-06-24. -/
theorem C1_counterexample :
    parseRepeatPattern "[w-tf]" = some ⟨.advanced, 'w', 1, [.tue, .fri]⟩ ∧
    scheduleNextOccurrence ⟨2025, 6, 18, 0, 0⟩ ⟨2025, 6, 16, 0, 0⟩
      ⟨.advanced, 'w', 1, [.tue, .fri]⟩ = .ok (some ⟨2025, 6, 24, 0, 0⟩) ∧
    (⟨2025, 6, 24, 0, 0⟩ : DT) ≠ ⟨2025, 6, 20, 0, 0⟩ :=
  ⟨by decide, by decide, by decide⟩

/-- C1 (amended): for a weekday-set rule completed late, the code scans the
sorted weekday set for the first day strictly after the **original due
date's** weekday (exactly as in the early/on-time case, not after the
completion date's weekday); the day-ahead offset is that day minus the
completion date's weekday, increased by `7 + (interval-1)*7` when
non-positive; when no set day lies after the original due weekday it wraps,
adding `7 - completion_weekday + first_set_day + (interval-1)*7` days. -/
theorem C1_weekday_set_late_anchor (c d : DT) (r : Rule)
    (ht : r.type = .advanced) (hw : r.unit = 'w')
    (hlate : ¬ dtLe (floorDay c) (floorDay d)) :
    (∀ nw : Nat, nw ∈ r.days.map dayToNum →
      pyWeekday (floorDay d) < nw →
      (∀ w ∈ r.days.map dayToNum, pyWeekday (floorDay d) < w → nw ≤ w) →
      scheduleNextOccurrence c d r =
        .ok (some (addDaysI (floorDay c)
          (if (nw : Int) - (pyWeekday (floorDay c) : Int) ≤ 0 then
             (nw : Int) - (pyWeekday (floorDay c) : Int) + 7 +
               ((r.interval : Int) - 1) * 7
           else (nw : Int) - (pyWeekday (floorDay c) : Int))))) ∧
    ((∀ w ∈ r.days.map dayToNum, w ≤ pyWeekday (floorDay d)) →
      ∀ f : Nat, f ∈ r.days.map dayToNum →
      (∀ w ∈ r.days.map dayToNum, f ≤ w) →
      scheduleNextOccurrence c d r =
        .ok (some (addDaysI (floorDay c)
          (7 - (pyWeekday (floorDay c) : Int) + (f : Int) +
            ((r.interval : Int) - 1) * 7)))) := by
  obtain ⟨t, u, i, ds⟩ := r
  dsimp only at ht hw ⊢
  subst ht
  subst hw
  unfold scheduleNextOccurrence
  dsimp only
  rw [if_pos rfl]
  cases ds with
  | nil =>
    constructor
    · intro nw hnw _ _
      exact absurd hnw (by simp)
    · intro _ f hf _
      exact absurd hf (by simp)
  | cons d0 dtl =>
    dsimp only
    cases hs : sortNats ((d0 :: dtl).map dayToNum) with
    | nil =>
      constructor
      · intro nw hnw _ _
        rw [← mem_sortNats, hs] at hnw
        exact absurd hnw (by simp)
      · intro _ f hf _
        rw [← mem_sortNats, hs] at hf
        exact absurd hf (by simp)
    | cons f0 rest =>
      dsimp only
      rw [if_neg hlate]
      constructor
      · intro nw hnw hgt hmin
        have hfind : (f0 :: rest).find?
            (fun w => pyWeekday (floorDay d) < w) = some nw := by
          refine find?_sorted_eq_some ?_ ?_ ?_ ?_
          · rw [← hs]; exact sorted_sortNats _
          · rw [← hs, mem_sortNats]; exact hnw
          · exact decide_eq_true hgt
          · intro w hwmem hpw
            refine hmin w ?_ (of_decide_eq_true hpw)
            rw [← mem_sortNats, hs]
            exact hwmem
        rw [hfind]
      · intro hall f hf hfmin
        have hfind : (f0 :: rest).find?
            (fun w => pyWeekday (floorDay d) < w) = none := by
          rw [List.find?_eq_none]
          intro w hwmem
          have hw' : w ∈ (d0 :: dtl).map dayToNum := by
            rw [← mem_sortNats, hs]; exact hwmem
          simp only [decide_eq_true_eq]
          exact Nat.not_lt.mpr (hall w hw')
        rw [hfind]
        have hf0 : f0 = f := by
          have h1 : f0 ≤ f := by
            have := (List.sorted_cons.mp (by rw [← hs]; exact sorted_sortNats _))
            have hfmem : f ∈ f0 :: rest := by rw [← hs, mem_sortNats]; exact hf
            rcases List.mem_cons.mp hfmem with rfl | hft
            · exact le_refl _
            · exact this.1 f hft
          have h2 : f ≤ f0 := by
            refine hfmin f0 ?_
            rw [← mem_sortNats, hs]
            exact List.mem_cons_self f0 rest
          omega
        rw [hf0]

/-- C1 witness: the amended formula at the counterexample's inputs; the
offset is `tue - wed = -1 ≤ 0`, so the full `7`-day jump applies and the
result is Tuesday 2025-06-24. -/
theorem C1_witness :
    scheduleNextOccurrence ⟨2025, 6, 18, 0, 0⟩ ⟨2025, 6, 16, 0, 0⟩
      ⟨.advanced, 'w', 1, [.tue, .fri]⟩ =
      .ok (some (addDaysI (floorDay ⟨2025, 6, 18, 0, 0⟩)
        (if ((1 : Nat) : Int) - (pyWeekday (floorDay ⟨2025, 6, 18, 0, 0⟩) : Int) ≤ 0
         then ((1 : Nat) : Int) - (pyWeekday (floorDay ⟨2025, 6, 18, 0, 0⟩) : Int) +
           7 + (((1 : Nat) : Int) - 1) * 7
         else ((1 : Nat) : Int) -
           (pyWeekday (floorDay ⟨2025, 6, 18, 0, 0⟩) : Int)))) ∧
    addDaysI (floorDay ⟨2025, 6, 18, 0, 0⟩) 6 = ⟨2025, 6, 24, 0, 0⟩ := by
  constructor
  · exact (C1_weekday_set_late_anchor ⟨2025, 6, 18, 0, 0⟩ ⟨2025, 6, 16, 0, 0⟩
      ⟨.advanced, 'w', 1, [.tue, .fri]⟩ rfl rfl (by decide)).1 1 (by decide)
      (by decide) (by decide)
  · decide

/-- A date never decreases under `addDays` (Python datetime order). -/
theorem dtLe_addDays (d : DT) (k : Nat) : dtLe d (addDays d k) := by
  rcases addDays_dateLe d k with h | h
  · exact Or.inl (dtLt_of_dateLt h)
  · exact Or.inr (dtExt h.1 h.2.1 h.2.2 (addDays_time d k).1.symm
      (addDays_time d k).2.symm)

theorem addDays_le_mono (d : DT) (k j : Nat) (h : k ≤ j) :
    dtLe (addDays d k) (addDays d j) := by
  have : j = k + (j - k) := by omega
  rw [this, addDays_add]
  exact dtLe_addDays (addDays d k) (j - k)

/-- On a sorted list, a found element is minimal among those satisfying the
predicate. -/
theorem find?_sorted_min {l : List Nat} {p : Nat → Bool} {x : Nat}
    (hs : List.Sorted (· ≤ ·) l) (hf : l.find? p = some x) :
    ∀ w ∈ l, p w = true → x ≤ w := by
  induction l with
  | nil => cases hf
  | cons a t ih =>
    intro w hw _
    by_cases hpa : p a = true
    · rw [List.find?_cons_of_pos _ hpa] at hf
      injection hf with hf
      subst hf
      rcases List.mem_cons.mp hw with rfl | hwt
      · exact le_refl _
      · exact (List.sorted_cons.mp hs).1 w hwt
    · rw [List.find?_cons_of_neg _ hpa] at hf
      rcases List.mem_cons.mp hw with rfl | hwt
      · exact absurd (by assumption) hpa
      · exact ih (List.sorted_cons.mp hs).2 hf w hwt (by assumption)

/-- Weekday numbers produced by `day_to_num` lie in `0..6`. -/
theorem mem_dayToNum_le6 {w : Nat} {l : List Day} (hw : w ∈ l.map dayToNum) :
    w ≤ 6 := by
  obtain ⟨x, _, rfl⟩ := List.mem_map.mp hw
  cases x <;> decide

/-- At equal times of day, the datetime order is the date order. -/
theorem dateLt_of_dtLt_time {a b : DT} (h : dtLt a b) (hh : a.hour = b.hour)
    (hm : a.minute = b.minute) : dateLt a b := by
  obtain ⟨ay, am, ad, ah, ami⟩ := a
  obtain ⟨by_, bm, bd, bh, bmi⟩ := b
  simp only at hh hm
  unfold dtLt at h
  unfold dateLt
  dsimp only at *
  omega

/-- C3: for a weekday-set rule and a date `today` (midnight), the first
occurrence exists and is the minimum date `d ≥ today` whose weekday lies in
the rule's weekday set; the rule's interval does not affect it. -/
theorem C3_first_occurrence_is_minimum (today : DT) (r : Rule)
    (ht : r.type = .advanced) (hw : r.unit = 'w') (hne : r.days ≠ [])
    (hv : ValidDT today) (hhr : today.hour = 0) (hmi : today.minute = 0) :
    (∀ j : Nat, calculateFirstOccurrence today { r with interval := j } =
      calculateFirstOccurrence today r) ∧
    ∃ res : DT, calculateFirstOccurrence today r = some res ∧
      dtLe today res ∧
      pyWeekday res ∈ r.days.map dayToNum ∧
      (∀ e : DT, ValidDT e → e.hour = 0 → e.minute = 0 → dtLe today e →
        pyWeekday e ∈ r.days.map dayToNum → dtLe res e) := by
  obtain ⟨t, u, i, ds⟩ := r
  dsimp only at ht hw hne ⊢
  subst ht; subst hw
  refine ⟨fun j => rfl, ?_⟩
  cases ds with
  | nil => exact absurd rfl hne
  | cons d0 dtl =>
    unfold calculateFirstOccurrence
    dsimp only
    rw [if_pos rfl]
    cases hs : sortNats ((d0 :: dtl).map dayToNum) with
    | nil =>
      exfalso
      have hmem : dayToNum d0 ∈ sortNats ((d0 :: dtl).map dayToNum) :=
        mem_sortNats.mpr (by simp)
      rw [hs] at hmem
      cases hmem
    | cons f0 rest =>
      dsimp only
      have hsorted : List.Sorted (· ≤ ·) (f0 :: rest) := by
        rw [← hs]; exact sorted_sortNats _
      have hmemiff : ∀ w : Nat,
          w ∈ f0 :: rest ↔ w ∈ (d0 :: dtl).map dayToNum := by
        intro w; rw [← hs, mem_sortNats]
      have hcw7 : pyWeekday today < 7 := pyWeekday_lt today
      have hbound : ∀ w ∈ f0 :: rest, w ≤ 6 := fun w hw =>
        mem_dayToNum_le6 ((hmemiff w).mp hw)
      have core : ∀ k : Nat,
          ((pyWeekday today + k) % 7 ∈ (d0 :: dtl).map dayToNum) →
          (∀ j, j < k →
            ¬ ((pyWeekday today + j) % 7 ∈ (d0 :: dtl).map dayToNum)) →
          (pyWeekday (addDays today k) ∈ (d0 :: dtl).map dayToNum ∧
           ∀ e : DT, ValidDT e → e.hour = 0 → e.minute = 0 → dtLe today e →
             pyWeekday e ∈ (d0 :: dtl).map dayToNum →
             dtLe (addDays today k) e) := by
        intro k hk hblock
        refine ⟨by rw [pyWeekday_addDays today k hv]; exact hk, ?_⟩
        intro e he heh hem hle hwde
        have hrd : rataDie today ≤ rataDie e := by
          rcases hle with hlt | heq
          · exact le_of_lt (rataDie_strictMono hv he
              (dateLt_of_dtLt_time hlt (by omega) (by omega)))
          · rw [heq]
        have hreach := addDays_reach e he today hv (by omega) (by omega) hrd
        have hwde' : (pyWeekday today +
            (rataDie e - rataDie today).toNat) % 7 ∈
            (d0 :: dtl).map dayToNum := by
          rw [← pyWeekday_addDays today _ hv, ← hreach]
          exact hwde
        have hkj : k ≤ (rataDie e - rataDie today).toNat := by
          by_contra hjk
          exact hblock _ (by omega) hwde'
        rw [hreach]
        exact addDays_le_mono today k _ hkj
      by_cases hcw : pyWeekday today ∈ f0 :: rest
      · rw [if_pos hcw]
        have h0 : (pyWeekday today + 0) % 7 ∈ (d0 :: dtl).map dayToNum := by
          have : (pyWeekday today + 0) % 7 = pyWeekday today := by omega
          rw [this]
          exact (hmemiff _).mp hcw
        have hcore := core 0 h0 (fun j hj => absurd hj (by omega))
        exact ⟨today, rfl, Or.inr rfl, (hmemiff _).mp hcw,
          fun e he heh hem hle hwde => hcore.2 e he heh hem hle hwde⟩
      · rw [if_neg hcw]
        cases hfind : (f0 :: rest).find? (fun w => pyWeekday today < w) with
        | some nw =>
          have hnw_mem : nw ∈ f0 :: rest := List.mem_of_find?_eq_some hfind
          have hp := List.find?_some hfind
          have hnw_gt : pyWeekday today < nw := by
            simpa using hp
          have hnw_min : ∀ w ∈ f0 :: rest, pyWeekday today < w → nw ≤ w :=
            fun w hw hgw =>
              find?_sorted_min hsorted hfind w hw (decide_eq_true hgw)
          have hnw6 : nw ≤ 6 := hbound nw hnw_mem
          have h1 : (pyWeekday today + (nw - pyWeekday today)) % 7 ∈
              (d0 :: dtl).map dayToNum := by
            have : (pyWeekday today + (nw - pyWeekday today)) % 7 = nw := by
              omega
            rw [this]
            exact (hmemiff _).mp hnw_mem
          have h2 : ∀ j, j < nw - pyWeekday today →
              ¬ ((pyWeekday today + j) % 7 ∈ (d0 :: dtl).map dayToNum) := by
            intro j hj hmem'
            have hmod : (pyWeekday today + j) % 7 = pyWeekday today + j := by
              omega
            rw [hmod] at hmem'
            have hw' : pyWeekday today + j ∈ f0 :: rest :=
              (hmemiff _).mpr hmem'
            rcases Nat.eq_zero_or_pos j with rfl | hjpos
            · rw [Nat.add_zero] at hw'
              exact hcw hw'
            · have := hnw_min _ hw' (by omega)
              omega
          have hcore := core (nw - pyWeekday today) h1 h2
          exact ⟨addDays today (nw - pyWeekday today), rfl,
            dtLe_addDays _ _, hcore.1, hcore.2⟩
        | none =>
          have hnone : ∀ w ∈ f0 :: rest, ¬ pyWeekday today < w := by
            intro w hw
            have := List.find?_eq_none.mp hfind w hw
            simpa using this
          have hf0min : ∀ w ∈ f0 :: rest, f0 ≤ w := by
            intro w hw
            rcases List.mem_cons.mp hw with rfl | hwt
            · exact le_refl _
            · exact (List.sorted_cons.mp hsorted).1 w hwt
          have hf06 : f0 ≤ 6 := hbound f0 (List.mem_cons_self f0 rest)
          have hf0cw : f0 ≤ pyWeekday today :=
            Nat.not_lt.mp (hnone f0 (List.mem_cons_self f0 rest))
          have h1 : (pyWeekday today + (7 - pyWeekday today + f0)) % 7 ∈
              (d0 :: dtl).map dayToNum := by
            have : (pyWeekday today + (7 - pyWeekday today + f0)) % 7 = f0 := by
              omega
            rw [this]
            exact (hmemiff _).mp (List.mem_cons_self f0 rest)
          have h2 : ∀ j, j < 7 - pyWeekday today + f0 →
              ¬ ((pyWeekday today + j) % 7 ∈ (d0 :: dtl).map dayToNum) := by
            intro j hj hmem'
            have hw' : (pyWeekday today + j) % 7 ∈ f0 :: rest :=
              (hmemiff _).mpr hmem'
            by_cases hcj : pyWeekday today + j < 7
            · have hmod : (pyWeekday today + j) % 7 = pyWeekday today + j := by
                omega
              rw [hmod] at hw'
              have hle' := hnone _ hw'
              have hj0 : j = 0 := by omega
              subst hj0
              rw [Nat.add_zero] at hw'
              exact hcw hw'
            · have hmod : (pyWeekday today + j) % 7 =
                  pyWeekday today + j - 7 := by omega
              rw [hmod] at hw'
              have := hf0min _ hw'
              omega
          have hcore := core (7 - pyWeekday today + f0) h1 h2
          exact ⟨addDays today (7 - pyWeekday today + f0), rfl,
            dtLe_addDays _ _, hcore.1, hcore.2⟩

/-- C3 witness: `"gym workout [w-mwf]"` created on Tuesday 2025-06-17 — the
minimal matching date is Wednesday 2025-06-18. -/
theorem C3_witness :
    calculateFirstOccurrence ⟨2025, 6, 17, 0, 0⟩
      ⟨.advanced, 'w', 1, [.mon, .wed, .fri]⟩ = some ⟨2025, 6, 18, 0, 0⟩ ∧
    ((∀ j : Nat, calculateFirstOccurrence ⟨2025, 6, 17, 0, 0⟩
        { (⟨.advanced, 'w', 1, [.mon, .wed, .fri]⟩ : Rule) with
          interval := j } =
      calculateFirstOccurrence ⟨2025, 6, 17, 0, 0⟩
        ⟨.advanced, 'w', 1, [.mon, .wed, .fri]⟩) ∧
    ∃ res : DT, calculateFirstOccurrence ⟨2025, 6, 17, 0, 0⟩
        ⟨.advanced, 'w', 1, [.mon, .wed, .fri]⟩ = some res ∧
      dtLe ⟨2025, 6, 17, 0, 0⟩ res ∧
      pyWeekday res ∈
        ([Day.mon, Day.wed, Day.fri] : List Day).map dayToNum ∧
      (∀ e : DT, ValidDT e → e.hour = 0 → e.minute = 0 →
        dtLe ⟨2025, 6, 17, 0, 0⟩ e →
        pyWeekday e ∈ ([Day.mon, Day.wed, Day.fri] : List Day).map dayToNum →
        dtLe res e)) :=
  ⟨by decide,
   C3_first_occurrence_is_minimum ⟨2025, 6, 17, 0, 0⟩
     ⟨.advanced, 'w', 1, [.mon, .wed, .fri]⟩ rfl rfl (by decide) (by decide)
     rfl rfl⟩

/-! ## Lemmas on the token-string decomposition -/

theorem map_id_of {f : Char → Char} {l : List Char} (h : ∀ c ∈ l, f c = c) :
    l.map f = l := by
  induction l with
  | nil => rfl
  | cons c t ih =>
    simp only [List.map_cons]
    rw [h c (List.mem_cons_self c t), ih (fun x hx => h x (List.mem_cons_of_mem c hx))]

theorem dropWhile_eq_self_of {p : Char → Bool} {l : List Char}
    (h : ∀ c ∈ l, p c = false) : l.dropWhile p = l := by
  cases l with
  | nil => rfl
  | cons c t =>
    rw [List.dropWhile_cons_of_neg]
    simp [h c (List.mem_cons_self c t)]

theorem trimWs_eq_self {l : List Char} (h : ∀ c ∈ l, isWs c = false) :
    trimWs l = l := by
  unfold trimWs
  rw [dropWhile_eq_self_of h, dropWhile_eq_self_of ?_, List.reverse_reverse]
  intro c hc
  exact h c (List.mem_reverse.mp hc)

theorem takeWhile_append_of {p : Char → Bool} {a b : List Char}
    (ha : ∀ c ∈ a, p c = true) (hb : ∀ c, b.head? = some c → p c = false) :
    (a ++ b).takeWhile p = a := by
  induction a with
  | nil =>
    rw [List.nil_append]
    cases b with
    | nil => rfl
    | cons c t =>
      rw [List.takeWhile_cons_of_neg]
      simp [hb c rfl]
  | cons c t ih =>
    rw [List.cons_append,
      List.takeWhile_cons_of_pos (ha c (List.mem_cons_self c t)),
      ih (fun x hx => ha x (List.mem_cons_of_mem c hx))]

theorem dropWhile_append_of {p : Char → Bool} {a b : List Char}
    (ha : ∀ c ∈ a, p c = true) (hb : ∀ c, b.head? = some c → p c = false) :
    (a ++ b).dropWhile p = b := by
  induction a with
  | nil =>
    rw [List.nil_append]
    cases b with
    | nil => rfl
    | cons c0 t =>
      rw [List.dropWhile_cons_of_neg]
      simp [hb c0 rfl]
  | cons c t ih =>
    rw [List.cons_append, List.dropWhile_cons_of_pos (ha c (List.mem_cons_self c t)),
      ih (fun x hx => ha x (List.mem_cons_of_mem c hx))]

/-- C6 counterexample: `[w-mxf]` contains the invalid letter `x`; the claim
says `x` is silently dropped giving a `{Mon, Fri}` rule (as `[w-mf]` indeed
gives), but the parser rejects the whole token. -/
theorem C6_counterexample :
    parseRepeatPattern "[w-mxf]" = none ∧
    parseRepeatPattern "[w-mf]" = some ⟨.advanced, 'w', 1, [.mon, .fri]⟩ :=
  ⟨by decide, by decide⟩

/-- C6 (amended): for a token `[w-<letters>]` or `[<int>w-<letters>]`, the
day-letter group must consist entirely of valid letters `{m,t,w,r,f,s,u}`
(and be non-empty): any letter outside the set makes the regex fail and the
whole token parse as null — invalid letters are not dropped (the
letter-filter loop is unreachable dead code); when all letters are valid,
every one of them is kept, in order. -/
theorem C6_invalid_letters_reject_token (digs ds : List Char)
    (hdigs : ∀ c ∈ digs, c.isDigit = true ∧ c.toLower = c ∧ isWs c = false)
    (hds : ∀ c ∈ ds, c.toLower = c ∧ isWs c = false) :
    parseRepeatPattern ⟨'[' :: (digs ++ 'w' :: '-' :: ds ++ [']'])⟩ =
      if ds ≠ [] ∧ ds.all (fun c => (dayMapping c).isSome) then
        some ⟨.advanced, 'w', (if digs = [] then 1 else natOfDigits digs),
          ds.filterMap dayMapping⟩
      else none := by
  have hinner :
      trimWs (((('[' :: (digs ++ 'w' :: '-' :: ds ++ [']'])).drop 1).dropLast).map
        Char.toLower) = digs ++ 'w' :: '-' :: ds := by
    rw [show (('[' :: (digs ++ 'w' :: '-' :: ds ++ [']'])).drop 1) =
      digs ++ 'w' :: '-' :: ds ++ [']'] from rfl]
    rw [show digs ++ 'w' :: '-' :: ds ++ [']'] =
      (digs ++ 'w' :: '-' :: ds) ++ [']'] from by simp]
    rw [List.dropLast_concat]
    rw [map_id_of ?hmap, trimWs_eq_self ?hws]
    case hmap =>
      intro c hc
      rcases List.mem_append.mp hc with h | h
      · exact (hdigs c h).2.1
      · rcases List.mem_cons.mp h with rfl | h
        · decide
        · rcases List.mem_cons.mp h with rfl | h
          · decide
          · exact (hds c h).1
    case hws =>
      intro c hc
      rcases List.mem_append.mp hc with h | h
      · exact (hdigs c h).2.2
      · rcases List.mem_cons.mp h with rfl | h
        · decide
        · rcases List.mem_cons.mp h with rfl | h
          · decide
          · exact (hds c h).2
  have hspan : (digs ++ 'w' :: '-' :: ds).span Char.isDigit =
      (digs, 'w' :: '-' :: ds) := by
    rw [List.span_eq_take_drop,
      takeWhile_append_of (fun c hc => (hdigs c hc).1)
        (fun c hc => by injection hc with hc; subst hc; decide),
      dropWhile_append_of (fun c hc => (hdigs c hc).1)
        (fun c hc => by injection hc with hc; subst hc; decide)]
  have hintv : matchIntervalTok (digs ++ 'w' :: '-' :: ds) = none := by
    unfold matchIntervalTok
    rw [hspan]
  have hweek : matchWeeklyTok (digs ++ 'w' :: '-' :: ds) =
      if ds ≠ [] ∧ ds.all (fun c => (dayMapping c).isSome) then
        some (if digs = [] then 1 else natOfDigits digs, ds)
      else none := by
    unfold matchWeeklyTok
    rw [hspan]
    rfl
  have hlen : (digs ++ 'w' :: '-' :: ds).length = digs.length + 2 + ds.length := by
    simp
    omega
  have hdaylet : ¬ (matchDayLettersTok (digs ++ 'w' :: '-' :: ds) = true) := by
    intro hmt
    unfold matchDayLettersTok at hmt
    rw [Bool.and_eq_true] at hmt
    have hall := List.all_eq_true.mp hmt.2 '-'
      (List.mem_append.mpr (Or.inr (List.mem_cons_of_mem 'w'
        (List.mem_cons_self '-' ds))))
    exact absurd hall (by decide)
  unfold parseRepeatPattern
  dsimp only
  rw [if_pos ?hbr]
  case hbr =>
    refine ⟨rfl, ?_⟩
    rw [show ('[' :: (digs ++ 'w' :: '-' :: ds ++ [']'])) =
      ('[' :: (digs ++ 'w' :: '-' :: ds)) ++ [']'] from by simp]
    exact List.getLast?_concat _
  rw [hinner]
  rw [if_neg (by simp)]
  rw [if_neg ?hbare]
  case hbare =>
    rintro (h | h | h | h) <;> (rw [h] at hlen; simp at hlen; omega)
  rw [hintv, hweek]
  by_cases hval : ds ≠ [] ∧ ds.all (fun c => (dayMapping c).isSome) = true
  · rw [if_pos hval, if_pos hval]
    dsimp only
    obtain ⟨hne, hall⟩ := hval
    cases ds with
    | nil => exact absurd rfl hne
    | cons c0 t =>
      have hc0 := List.all_eq_true.mp hall c0 (List.mem_cons_self c0 t)
      obtain ⟨v, hv⟩ := Option.isSome_iff_exists.mp hc0
      rw [if_pos ?hnenil]
      case hnenil =>
        rw [List.filterMap_cons_some hv]
        simp
  · rw [if_neg hval, if_neg hval]
    dsimp only
    rw [if_neg hdaylet]

/-- C6 witness: the validation rule at the concrete token `[2w-mtf]`. -/
theorem C6_witness :
    (parseRepeatPattern ⟨'[' :: (['2'] ++ 'w' :: '-' :: ['m', 't', 'f'] ++ [']'])⟩ =
      if (['m', 't', 'f'] : List Char) ≠ [] ∧
          (['m', 't', 'f'] : List Char).all (fun c => (dayMapping c).isSome) then
        some ⟨.advanced, 'w',
          (if (['2'] : List Char) = [] then 1 else natOfDigits ['2']),
          (['m', 't', 'f'] : List Char).filterMap dayMapping⟩
      else none) ∧
    parseRepeatPattern "[2w-mtf]" = some ⟨.advanced, 'w', 2, [.mon, .tue, .fri]⟩ :=
  ⟨C6_invalid_letters_reject_token ['2'] ['m', 't', 'f'] (by decide) (by decide),
   by decide⟩

/-- A successful scan means the matcher accepted some suffix. -/
theorem searchIdx_some {α : Type} {f : List Char → Option α} :
    ∀ (l : List Char) (i j : Nat) (v : α),
      searchIdx f l i = some (j, v) → ∃ l', f l' = some v := by
  intro l
  induction l with
  | nil =>
    intro i j v h
    unfold searchIdx at h
    cases hf : f [] with
    | none => rw [hf] at h; exact Option.noConfusion h
    | some a =>
      rw [hf] at h
      refine ⟨[], ?_⟩
      rw [hf]
      simp only [Option.map_some'] at h
      injection h with h
      injection h with _ h
      rw [h]
  | cons c t ih =>
    intro i j v h
    unfold searchIdx at h
    cases hf : f (c :: t) with
    | some a =>
      rw [hf] at h
      refine ⟨c :: t, ?_⟩
      rw [hf]
      injection h with h
      injection h with _ h
      rw [h]
    | none =>
      rw [hf] at h
      exact ih (i + 1) j v h

/-- The matched unit text is one of the twelve regex alternatives. -/
theorem durMatchAt_unit_mem {l : List Char} {a : Nat} {u : List Char}
    (h : durMatchAt l = some (a, u)) :
    u = "days".data ∨ u = "day".data ∨ u = "weeks".data ∨ u = "week".data ∨
    u = "months".data ∨ u = "month".data ∨ u = "years".data ∨
    u = "year".data ∨ u = "d".data ∨ u = "w".data ∨ u = "m".data ∨
    u = "y".data := by
  unfold durMatchAt at h
  dsimp only at h
  split at h
  · exact Option.noConfusion h
  · cases hu : durUnitAt (((l.span Char.isDigit).2).dropWhile isWs) with
    | none => rw [hu] at h; exact Option.noConfusion h
    | some u' =>
      rw [hu] at h
      simp only [Option.map_some'] at h
      injection h with h
      injection h with _ h
      subst h
      have hmem := List.mem_of_find?_eq_some hu
      simp at hmem
      rcases hmem with h|h|h|h|h|h|h|h|h|h|h|h <;> subst h <;> simp

/-- A failed scan means the matcher rejects every suffix. -/
theorem searchIdx_none {α : Type} {f : List Char → Option α} :
    ∀ (l : List Char) (i : Nat), searchIdx f l i = none →
      ∀ j : Nat, f (l.drop j) = none := by
  intro l
  induction l with
  | nil =>
    intro i h j
    rw [List.drop_nil]
    unfold searchIdx at h
    cases hf : f [] with
    | none => rfl
    | some a => rw [hf] at h; exact Option.noConfusion h
  | cons c t ih =>
    intro i h j
    unfold searchIdx at h
    cases hf : f (c :: t) with
    | some a => rw [hf] at h; exact Option.noConfusion h
    | none =>
      rw [hf] at h
      cases j with
      | zero => exact hf
      | succ j =>
        rw [List.drop_succ_cons]
        exact ih (i + 1) h j

/-- Whitespace characters are not digits. -/
theorem isWs_not_digit {c : Char} (h : isWs c = true) : c.isDigit = false := by
  unfold isWs at h
  simp only [Bool.or_eq_true, decide_eq_true_eq] at h
  rcases h with ((((rfl | rfl) | rfl) | rfl) | rfl) | rfl <;> decide

/-- The twelve unit spellings of the duration regex. -/
def durUnitSpelling (u : List Char) : Prop :=
  u = "days".data ∨ u = "day".data ∨ u = "weeks".data ∨ u = "week".data ∨
  u = "months".data ∨ u = "month".data ∨ u = "years".data ∨
  u = "year".data ∨ u = "d".data ∨ u = "w".data ∨ u = "m".data ∨
  u = "y".data

/-- A unit spelling starts with a (non-digit, non-whitespace) letter. -/
theorem durUnitSpelling_head {u : List Char} (h : durUnitSpelling u) :
    ∀ c, u.head? = some c → (c.isDigit = false ∧ isWs c = false) := by
  rcases h with rfl|rfl|rfl|rfl|rfl|rfl|rfl|rfl|rfl|rfl|rfl|rfl <;>
    (intro c hc; injection hc with hc; subst hc; exact ⟨by decide, by decide⟩)

/-- The duration matcher accepts a suffix that starts with
digits–whitespace–unit. -/
theorem durMatchAt_of_shape (mids midw midu post : List Char)
    (hd : mids ≠ []) (hdig : ∀ c ∈ mids, c.isDigit = true)
    (hws : ∀ c ∈ midw, isWs c = true) (hu : durUnitSpelling midu) :
    durMatchAt (mids ++ (midw ++ (midu ++ post))) ≠ none := by
  have hbnd : ∀ c : Char, (midw ++ (midu ++ post)).head? = some c →
      c.isDigit = false := by
    cases midw with
    | nil =>
      cases midu with
      | nil => rcases hu with h|h|h|h|h|h|h|h|h|h|h|h <;> exact absurd h (by decide)
      | cons u0 ut =>
        intro c hc
        injection hc with hc
        subst hc
        exact (durUnitSpelling_head hu _ rfl).1
    | cons w0 wt =>
      intro c hc
      injection hc with hc
      subst hc
      exact isWs_not_digit (hws w0 (List.mem_cons_self w0 wt))
  have hspan : (mids ++ (midw ++ (midu ++ post))).span Char.isDigit =
      (mids, midw ++ (midu ++ post)) := by
    rw [List.span_eq_take_drop, takeWhile_append_of hdig hbnd,
      dropWhile_append_of hdig hbnd]
  have hdw : (midw ++ (midu ++ post)).dropWhile isWs = midu ++ post := by
    refine dropWhile_append_of hws ?_
    cases midu with
    | nil => rcases hu with h|h|h|h|h|h|h|h|h|h|h|h <;> exact absurd h (by decide)
    | cons u0 ut =>
      intro c hc
      injection hc with hc
      subst hc
      exact (durUnitSpelling_head hu _ rfl).2
  have hunit : durUnitAt (midu ++ post) ≠ none := by
    intro hnone
    unfold durUnitAt at hnone
    have hfail := List.find?_eq_none.mp hnone midu ?hmem
    case hmem =>
      rcases hu with rfl|rfl|rfl|rfl|rfl|rfl|rfl|rfl|rfl|rfl|rfl|rfl <;> decide
    exact hfail (by
      rw [List.isPrefixOf_iff_prefix]
      exact List.prefix_append midu post)
  unfold durMatchAt
  dsimp only
  rw [hspan]
  dsimp only
  rw [if_neg (by simpa using hd), hdw]
  intro hmap
  rcases hmo : durUnitAt (midu ++ post) with _ | u'
  · exact hunit hmo
  · rw [hmo] at hmap
    exact Option.noConfusion hmap

/-- C10: acceptance of `parse_natural_language_date`'s duration path is by
substring search, not whole-string match.  Part 1: whenever the leftmost
scan finds `<integer><whitespace*><unit>`, the function returns the date
computed from that first match (amount days / weeks / amount×30 days /
amount×365 days).  Part 2: any string containing such a substring anywhere
within it — surrounding text and all — is accepted (non-null). -/
theorem C10_duration_substring_accepted (today : DT) (s : String) :
    (∀ i a : Nat, ∀ u : List Char,
      searchIdx durMatchAt (s.data.map Char.toLower) 0 = some (i, a, u) →
      parseNaturalLanguageDate today s =
        (if u = "d".data ∨ u = "day".data ∨ u = "days".data then
          some (addDays today a)
        else if u = "w".data ∨ u = "week".data ∨ u = "weeks".data then
          some (addDays today (7 * a))
        else if u = "m".data ∨ u = "month".data ∨ u = "months".data then
          some (addDays today (a * 30))
        else if u = "y".data ∨ u = "year".data ∨ u = "years".data then
          some (addDays today (a * 365))
        else none) ∧
      parseNaturalLanguageDate today s ≠ none) ∧
    (∀ pre mids midw midu post : List Char,
      s.data.map Char.toLower = pre ++ ((mids ++ (midw ++ (midu ++ post)))) →
      mids ≠ [] → (∀ c ∈ mids, c.isDigit = true) →
      (∀ c ∈ midw, isWs c = true) → durUnitSpelling midu →
      parseNaturalLanguageDate today s ≠ none) := by
  have part1 : ∀ i a : Nat, ∀ u : List Char,
      searchIdx durMatchAt (s.data.map Char.toLower) 0 = some (i, a, u) →
      parseNaturalLanguageDate today s =
        (if u = "d".data ∨ u = "day".data ∨ u = "days".data then
          some (addDays today a)
        else if u = "w".data ∨ u = "week".data ∨ u = "weeks".data then
          some (addDays today (7 * a))
        else if u = "m".data ∨ u = "month".data ∨ u = "months".data then
          some (addDays today (a * 30))
        else if u = "y".data ∨ u = "year".data ∨ u = "years".data then
          some (addDays today (a * 365))
        else none) ∧
      parseNaturalLanguageDate today s ≠ none := by
    intro i a u h
    have hne_today : s.data.map Char.toLower ≠ "today".data := by
      intro he
      rw [he] at h
      have h0 : searchIdx durMatchAt ("today".data) 0 =
          (none : Option (Nat × Nat × List Char)) := by decide
      rw [h0] at h
      exact Option.noConfusion h
    have hne_tom : s.data.map Char.toLower ≠ "tomorrow".data := by
      intro he
      rw [he] at h
      have h0 : searchIdx durMatchAt ("tomorrow".data) 0 =
          (none : Option (Nat × Nat × List Char)) := by decide
      rw [h0] at h
      exact Option.noConfusion h
    have heq : parseNaturalLanguageDate today s =
        (if u = "d".data ∨ u = "day".data ∨ u = "days".data then
          some (addDays today a)
        else if u = "w".data ∨ u = "week".data ∨ u = "weeks".data then
          some (addDays today (7 * a))
        else if u = "m".data ∨ u = "month".data ∨ u = "months".data then
          some (addDays today (a * 30))
        else if u = "y".data ∨ u = "year".data ∨ u = "years".data then
          some (addDays today (a * 365))
        else none) := by
      unfold parseNaturalLanguageDate
      dsimp only
      rw [if_neg hne_today, if_neg hne_tom, h]
    refine ⟨heq, ?_⟩
    rw [heq]
    obtain ⟨l', hl'⟩ := searchIdx_some _ _ _ _ h
    have hmem := durMatchAt_unit_mem hl'
    rcases hmem with h'|h'|h'|h'|h'|h'|h'|h'|h'|h'|h'|h' <;> subst h' <;> simp
  refine ⟨part1, ?_⟩
  intro pre mids midw midu post hdec hd hdig hws hu
  cases hsearch : searchIdx durMatchAt (s.data.map Char.toLower) 0 with
  | some v =>
    obtain ⟨i, a, u⟩ := v
    exact (part1 i a u hsearch).2
  | none =>
    exfalso
    have hall := searchIdx_none _ 0 hsearch pre.length
    rw [hdec, List.drop_left] at hall
    exact durMatchAt_of_shape mids midw midu post hd hdig hws hu hall

/-- C10 witness: `"abc 5d xyz"` parses via the `5d` substring despite the
surrounding text, on both routes (leftmost scan and decomposition). -/
theorem C10_witness :
    parseNaturalLanguageDate ⟨2025, 6, 16, 0, 0⟩ "abc 5d xyz" ≠ none ∧
    parseNaturalLanguageDate ⟨2025, 6, 16, 0, 0⟩ "abc 5d xyz" =
      some (addDays ⟨2025, 6, 16, 0, 0⟩ 5) := by
  constructor
  · exact (C10_duration_substring_accepted ⟨2025, 6, 16, 0, 0⟩
      "abc 5d xyz").2 "abc ".data ['5'] [] ['d'] " xyz".data (by decide)
      (by decide) (by decide) (by decide) (by unfold durUnitSpelling; decide)
  · have h := ((C10_duration_substring_accepted ⟨2025, 6, 16, 0, 0⟩
      "abc 5d xyz").1 4 5 "d".data (by decide)).1
    exact h.trans (by decide)

/-- C7: `remove_date_prefixes` removes a leading connective (`in`, `:`, or
the compound `: in`, the compound form checked first) immediately before a
recognized date phrase, collapsing whitespace — in particular
`"brush the dog: 1d [1w]"` becomes `"brush the dog 1d [1w]"` and the
compound `"wash dog: in 5d"` becomes `"wash dog 5d"` with no dangling
colon — and returns its input unchanged when none of the
connective-before-phrase searches matches. -/
theorem C7_remove_date_prefixes (s : String)
    (h1 : searchIdx (matchColonInAt natPhraseHead)
      (s.data.map Char.toLower) 0 = none)
    (h2 : searchIdx (matchConnAt natPhraseHead)
      (s.data.map Char.toLower) 0 = none)
    (h3 : firstSome (datePatChks.map fun chk =>
      searchIdx (matchColonInAt chk) (s.data.map Char.toLower) 0) = none)
    (h4 : firstSome (datePatChks.map fun chk =>
      searchIdx (matchConnAt chk) (s.data.map Char.toLower) 0) = none) :
    removeDatePrefixes s = s ∧
    removeDatePrefixes "brush the dog: 1d [1w]" = "brush the dog 1d [1w]" ∧
    removeDatePrefixes "wash dog: in 5d" = "wash dog 5d" := by
  refine ⟨?_, by decide, by decide⟩
  unfold removeDatePrefixes
  dsimp only
  rw [h1, h2, h3, h4]

/-- C7 witness: a title with no date phrase is returned unchanged. -/
theorem C7_witness :
    removeDatePrefixes "clean room" = "clean room" ∧
    removeDatePrefixes "brush the dog: 1d [1w]" = "brush the dog 1d [1w]" ∧
    removeDatePrefixes "wash dog: in 5d" = "wash dog 5d" :=
  C7_remove_date_prefixes "clean room" (by decide) (by decide) (by decide)
    (by decide)
